import Mathlib

/-!
Verification of the open-addressing hash map in `src/libsampler/hashmap.h`
(`v8::sampler::HashMapImpl`).

The table is a contiguous array of `Entry` slots (key, value, hash, order).
Keys and values are opaque pointers in the C++ source; we model them as
natural numbers with `0` playing the role of the `NULL` sentinel (an empty
slot is one whose `key` is `0`, exactly as `p->key == NULL` marks an empty
slot in the source).  The caller-supplied match function is modelled as a
`Nat → Nat → Bool` parameter; the source's provided `PointersMatch`
(pointer identity) is the instance used by the theorems.

Loops of the source that terminate only because of the data-structure
invariant `occupancy < capacity` (probing, back-shift removal, the growth
recursion) are modelled with an explicit fuel argument and an `Option`
result; `none` corresponds to the C++ loop failing to terminate, and the
lemmas show the fuel used by the embedding suffices on well-formed tables.
-/

namespace Hashmap

/-- One slot of the table, mirroring `HashMapImpl::Entry`
(`key`, `value`, `hash`, `order`).  `key = 0` models `key == NULL`,
i.e. an empty slot. -/
structure Entry where
  key : Nat
  value : Nat
  hash : Nat
  order : Nat
deriving Repr, DecidableEq

instance : Inhabited Entry := ⟨⟨0, 0, 0, 0⟩⟩

/-- Read slot `i` of the backing array (out-of-range reads return the
all-zero entry; every access in the development is in range). -/
def ent (A : Array Entry) (i : Nat) : Entry :=
  A.getD i ⟨0, 0, 0, 0⟩

theorem ent_eq_getElem (A : Array Entry) (i : Nat) (h : i < A.size) :
    ent A i = A[i] := by
  simp [ent, Array.getD, h]

theorem ent_setD_eq (A : Array Entry) (i : Nat) (e : Entry) (h : i < A.size) :
    ent (A.setD i e) i = e := by
  simp [ent, Array.getD, Array.size_setD, h]

theorem ent_setD_ne (A : Array Entry) (i j : Nat) (e : Entry) (h : i ≠ j) :
    ent (A.setD i e) j = ent A j := by
  unfold Array.setD
  split
  · rename_i hi
    unfold ent Array.getD
    simp only [Array.size_set]
    split
    · rename_i hj
      rw [Array.get_eq_getElem, Array.get_eq_getElem, Array.getElem_set]
      simp [h]
    · rfl
  · rfl

theorem size_setD (A : Array Entry) (i : Nat) (e : Entry) :
    (A.setD i e).size = A.size :=
  Array.size_setD A i e

/-! ## Cyclic distance toolkit

`dist cap a b` is the number of forward steps (with wraparound at `cap`)
from slot `a` to slot `b`.  `inPath cap a b x` says `x` lies on the linear
probe path that starts at `a` and ends at `b`. -/

/-- Forward cyclic distance from `a` to `b` in a table of `cap` slots. -/
def dist (cap a b : Nat) : Nat := (b + cap - a) % cap

/-- `x` lies on the forward probe path from `a` to `b` (inclusive). -/
def inPath (cap a b x : Nat) : Prop := dist cap a x ≤ dist cap a b

instance (cap a b x : Nat) : Decidable (inPath cap a b x) := by
  unfold inPath; infer_instance

theorem dist_lt (cap a b : Nat) (h : 0 < cap) : dist cap a b < cap :=
  Nat.mod_lt _ h

theorem dist_self (cap a : Nat) : dist cap a a = 0 := by
  unfold dist
  have h : a + cap - a = cap := by omega
  rw [h, Nat.mod_self]

theorem dist_eq (cap a b : Nat) (ha : a < cap) (hb : b < cap) :
    dist cap a b = if a ≤ b then b - a else b + cap - a := by
  unfold dist
  split
  · rename_i h
    have h2 : b + cap - a = (b - a) + cap := by omega
    rw [h2, Nat.add_mod_right, Nat.mod_eq_of_lt (by omega)]
  · rename_i h
    rw [Nat.mod_eq_of_lt (by omega)]

theorem dist_eq_zero_iff (cap a b : Nat) (hc : 0 < cap) (ha : a < cap) (hb : b < cap) :
    dist cap a b = 0 ↔ a = b := by
  rw [dist_eq cap a b ha hb]
  split <;> omega

theorem add_dist (cap a b : Nat) (ha : a < cap) (hb : b < cap) :
    (a + dist cap a b) % cap = b := by
  rw [dist_eq cap a b ha hb]
  split
  · rename_i h
    have h2 : a + (b - a) = b := by omega
    rw [h2, Nat.mod_eq_of_lt hb]
  · rename_i h
    have h2 : a + (b + cap - a) = b + cap := by omega
    rw [h2, Nat.add_mod_right, Nat.mod_eq_of_lt hb]

theorem dist_of_add (cap s e : Nat) (hs : s < cap) (he : e < cap) :
    dist cap s ((s + e) % cap) = e := by
  unfold dist
  have h1 : (s + e) % cap + cap - s = (s + e) % cap + (cap - s) := by omega
  rw [h1, Nat.mod_add_mod]
  have h2 : s + e + (cap - s) = e + cap := by omega
  rw [h2, Nat.add_mod_right, Nat.mod_eq_of_lt he]

theorem dist_add_dist (cap a b : Nat) (hc : 0 < cap) (ha : a < cap) (hb : b < cap)
    (hne : a ≠ b) : dist cap a b + dist cap b a = cap := by
  rw [dist_eq cap a b ha hb, dist_eq cap b a hb ha]
  split <;> split <;> omega

theorem mod_cases (cap x : Nat) (h : x < 2 * cap) (hc : 0 < cap) :
    x % cap = if x < cap then x else x - cap := by
  split
  · exact Nat.mod_eq_of_lt (by assumption)
  · have h2 : x = (x - cap) + cap := by omega
    conv_lhs => rw [h2]
    rw [Nat.add_mod_right, Nat.mod_eq_of_lt (by omega)]

theorem dist_triangle (cap a b c : Nat) (hc : 0 < cap) (ha : a < cap) (hb : b < cap)
    (hcc : c < cap) : dist cap a c = (dist cap a b + dist cap b c) % cap := by
  have hx : dist cap a b + dist cap b c < 2 * cap := by
    have := dist_lt cap a b hc
    have := dist_lt cap b c hc
    omega
  rw [mod_cases cap _ hx hc,
      dist_eq cap a b ha hb, dist_eq cap b c hb hcc, dist_eq cap a c ha hcc]
  split_ifs <;> omega

theorem dist_base_change (cap p0 a b : Nat) (hc : 0 < cap) (hp : p0 < cap)
    (ha : a < cap) (hb : b < cap) :
    dist cap a b = dist cap (dist cap p0 a) (dist cap p0 b) := by
  have hda := dist_lt cap p0 a hc
  have hdb := dist_lt cap p0 b hc
  rw [dist_eq cap a b ha hb, dist_eq cap (dist cap p0 a) (dist cap p0 b) hda hdb,
      dist_eq cap p0 a hp ha, dist_eq cap p0 b hp hb]
  split_ifs <;> omega

theorem dist_add_one (cap a q : Nat) (hc : 0 < cap) (ha : a < cap) (hq : q < cap) :
    dist cap a ((q + 1) % cap) = (dist cap a q + 1) % cap := by
  unfold dist
  have h1 : (q + 1) % cap + cap - a = (q + 1) % cap + (cap - a) := by omega
  rw [h1, Nat.mod_add_mod]
  have h2 : q + 1 + (cap - a) = (q + cap - a) + 1 := by omega
  rw [h2, ← Nat.mod_add_mod]

theorem inPath_iff_add (cap a b x : Nat) (hc : 0 < cap) (ha : a < cap) (hb : b < cap)
    (hx : x < cap) :
    inPath cap a b x ↔ dist cap a x + dist cap x b = dist cap a b := by
  have ht := dist_triangle cap a x b hc ha hx hb
  have h1 := dist_lt cap a x hc
  have h2 := dist_lt cap x b hc
  have h3 := dist_lt cap a b hc
  unfold inPath
  rw [mod_cases cap _ (by omega) hc] at ht
  split_ifs at ht <;> omega

theorem path_sub (cap a b x z : Nat) (hc : 0 < cap) (ha : a < cap) (hb : b < cap)
    (hx : x < cap) (hz : z < cap) (h1 : inPath cap a b x) (h2 : inPath cap x b z) :
    inPath cap a b z := by
  rw [inPath_iff_add cap a b x hc ha hb hx] at h1
  rw [inPath_iff_add cap x b z hc hx hb hz] at h2
  rw [inPath_iff_add cap a b z hc ha hb hz]
  have ht := dist_triangle cap a x z hc ha hx hz
  have hd1 := dist_lt cap a x hc
  have hd2 := dist_lt cap x z hc
  have hd3 := dist_lt cap z b hc
  have hd4 := dist_lt cap a b hc
  have hd5 := dist_lt cap a z hc
  rw [mod_cases cap _ (by omega) hc] at ht
  split_ifs at ht <;> omega

theorem land_two_pow_sub_one (n k : Nat) : Nat.land n (2 ^ k - 1) = n % 2 ^ k := by
  show n &&& (2 ^ k - 1) = n % 2 ^ k
  apply Nat.eq_of_testBit_eq
  intro i
  rw [Nat.testBit_land, Nat.testBit_mod_two_pow, Nat.testBit_two_pow_sub_one]
  cases Nat.testBit n i <;> cases decide (i < k) <;> simp_all

/-! ## The hash map -/

/-- The table state: backing array, capacity and occupancy, mirroring the
private fields `map_`, `capacity_`, `occupancy_` of `HashMapImpl`.  The
caller-supplied match function `match_` is passed to the operations as an
explicit argument instead of being stored. -/
structure HashMapImpl where
  map_ : Array Entry
  capacity_ : Nat
  occupancy_ : Nat
deriving Repr, DecidableEq

/-- `HashMapImpl::PointersMatch`: identity comparison of keys. -/
def PointersMatch (key1 key2 : Nat) : Bool := key1 == key2

/-- The body of the probe loop of `HashMapImpl::Probe`: starting at slot
`i`, scan forward (wrapping at `cap`) while the slot is non-empty and does
not match (`hash` equality checked before the match function), for at most
`fuel` steps.  Returns the index of the first empty or matching slot. -/
def probeLoop (match_ : Nat → Nat → Bool) (A : Array Entry) (cap key hash : Nat) :
    Nat → Nat → Option Nat
  | 0, _ => none
  | fuel + 1, i =>
    if (ent A i).key = 0 then some i
    else if hash = (ent A i).hash ∧ match_ key (ent A i).key = true then some i
    else probeLoop match_ A cap key hash fuel ((i + 1) % cap)

/-- `HashMapImpl::Probe`: start at `hash & (capacity_ - 1)` and scan
forward.  The fuel `capacity_` suffices whenever an empty slot exists. -/
def Probe (match_ : Nat → Nat → Bool) (m : HashMapImpl) (key hash : Nat) : Option Nat :=
  probeLoop match_ m.map_ m.capacity_ key hash m.capacity_
    (Nat.land hash (m.capacity_ - 1))

/-- `HashMapImpl::Lookup`: the probed entry if its key is non-NULL,
otherwise NULL (modelled as `none`). -/
def Lookup (match_ : Nat → Nat → Bool) (m : HashMapImpl) (key hash : Nat) : Option Entry :=
  match Probe match_ m key hash with
  | none => none
  | some p => if (ent m.map_ p).key ≠ 0 then some (ent m.map_ p) else none

/-- Lines 121-125 of `LookupOrInsert`: write the new entry
(`key`, NULL value, `hash`, `order = occupancy_`) into the empty slot `p`
and increment the occupancy. -/
def place (m : HashMapImpl) (p key hash : Nat) : HashMapImpl :=
  { m with
    map_ := m.map_.setD p ⟨key, 0, hash, m.occupancy_⟩,
    occupancy_ := m.occupancy_ + 1 }

/-- The growth test of line 128: `occupancy_ + occupancy_ / 4 >= capacity_`
(truncating integer division). -/
def growthCheck (occupancy capacity : Nat) : Bool :=
  decide (occupancy + occupancy / 4 ≥ capacity)

/-- The body of `HashMapImpl::LookupOrInsert`, parameterised by the action
`onGrow` taken when the growth test fires (the call to `Resize()`).
Returns the final table together with the index of the returned entry. -/
def insertCore (match_ : Nat → Nat → Bool) (onGrow : HashMapImpl → Option HashMapImpl)
    (m : HashMapImpl) (key hash : Nat) : Option (HashMapImpl × Nat) :=
  match Probe match_ m key hash with
  | none => none
  | some p =>
    if (ent m.map_ p).key ≠ 0 then some (m, p)
    else
      let m1 := place m p key hash
      if growthCheck m1.occupancy_ m1.capacity_ then
        match onGrow m1 with
        | none => none
        | some m2 =>
          match Probe match_ m2 key hash with
          | none => none
          | some p2 => some (m2, p2)
      else some (m1, p)

/-- The rehash loop of `HashMapImpl::Resize` (lines 262-269): walk the old
backing array, re-inserting each non-empty entry via the insertion path
`ins` and copying its `value` and `order` onto the returned entry, until
`n` entries have been processed.  Walking past the end of the array with
`n > 0` is undefined behaviour in the source and yields `none` here. -/
def resizeLoopF (ins : HashMapImpl → Nat → Nat → Option (HashMapImpl × Nat)) :
    List Entry → Nat → HashMapImpl → Option HashMapImpl
  | _, 0, m => some m
  | [], _ + 1, _ => none
  | e :: rest, n + 1, m =>
    if e.key ≠ 0 then
      match ins m e.key e.hash with
      | none => none
      | some (m', i) =>
        let e2 : Entry := { ent m'.map_ i with value := e.value, order := e.order }
        resizeLoopF ins rest n { m' with map_ := m'.map_.setD i e2 }
    else resizeLoopF ins rest (n + 1) m

/-- `HashMapImpl::Initialize`: allocate `capacity` slots, all empty
(the source calls `Clear()` on the fresh allocation), occupancy `0`. -/
def initTable (capacity : Nat) : HashMapImpl :=
  { map_ := Array.mkArray capacity ⟨0, 0, 0, 0⟩,
    capacity_ := capacity,
    occupancy_ := 0 }

/-- `HashMapImpl::Resize`: build a table of double the capacity and rehash
every live entry of the old backing array into it via `ins`. -/
def resizeF (ins : HashMapImpl → Nat → Nat → Option (HashMapImpl × Nat))
    (m : HashMapImpl) : Option HashMapImpl :=
  resizeLoopF ins m.map_.toList m.occupancy_ (initTable (m.capacity_ * 2))

/-- `HashMapImpl::LookupOrInsert` with an explicit bound `fuel` on the
depth of the `LookupOrInsert → Resize → LookupOrInsert` recursion of the
source.  On well-formed tables a re-insertion during `Resize` never fires
the growth test again, so depth 1 suffices (`lookupOrInsert_total`). -/
def lookupOrInsertF (match_ : Nat → Nat → Bool) :
    Nat → HashMapImpl → Nat → Nat → Option (HashMapImpl × Nat)
  | 0 => insertCore match_ (fun _ => none)
  | fuel + 1 => insertCore match_ (fun m1 => resizeF (lookupOrInsertF match_ fuel) m1)

/-- `HashMapImpl::LookupOrInsert`. -/
def LookupOrInsert (match_ : Nat → Nat → Bool) (m : HashMapImpl) (key hash : Nat) :
    Option (HashMapImpl × Nat) :=
  lookupOrInsertF match_ 1 m key hash

/-- The cyclic-interval test of lines 184-185 of `HashMapImpl::Remove`:
`(q > p && (r <= p || r > q)) || (q < p && (r <= p && r > q))`.  `true`
means the entry at `q` is moved into the candidate slot `p`. -/
def moveCond (p q r : Nat) : Bool :=
  (decide (q > p) && (decide (r ≤ p) || decide (r > q))) ||
  (decide (q < p) && (decide (r ≤ p) && decide (r > q)))

/-- The back-shift loop of `HashMapImpl::Remove` (lines 164-189): `p` is
the candidate slot to clear, `q` scans forward.  Each step advances `q`
(wrapping), stops at an empty slot, and otherwise moves the entry at `q`
into `p` when `moveCond` holds for its ideal slot `r`.  Returns the final
array and candidate slot. -/
def removeLoop (cap : Nat) : Nat → Array Entry → Nat → Nat → Option (Array Entry × Nat)
  | 0, _, _, _ => none
  | fuel + 1, A, p, q =>
    let q1 := (q + 1) % cap
    if (ent A q1).key = 0 then some (A, p)
    else
      let r := Nat.land (ent A q1).hash (cap - 1)
      if moveCond p q1 r then
        removeLoop cap fuel (A.setD p (ent A q1)) q1 q1
      else
        removeLoop cap fuel A p q1

/-- `HashMapImpl::Remove`: probe; if the slot is empty return NULL (pair
`(m, 0)` with the table unchanged), otherwise record the value, run the
back-shift loop, clear the final candidate slot and decrement the
occupancy. -/
def Remove (match_ : Nat → Nat → Bool) (m : HashMapImpl) (key hash : Nat) :
    Option (HashMapImpl × Nat) :=
  match Probe match_ m key hash with
  | none => none
  | some p =>
    if (ent m.map_ p).key = 0 then some (m, 0)
    else
      let value := (ent m.map_ p).value
      match removeLoop m.capacity_ m.capacity_ m.map_ p p with
      | none => none
      | some (A1, pf) =>
        some ({ m with
                map_ := A1.setD pf { ent A1 pf with key := 0 },
                occupancy_ := m.occupancy_ - 1 }, value)

/-- `HashMapImpl::Clear`: mark every slot empty (only the key is reset,
as in the source), occupancy `0`. -/
def Clear (m : HashMapImpl) : HashMapImpl :=
  { m with
    map_ := m.map_.map (fun e => { e with key := 0 }),
    occupancy_ := 0 }

/-- `kDefaultHashMapCapacity`. -/
def kDefaultHashMapCapacity : Nat := 8

/-- The constructor `HashMapImpl(match, capacity)` with the default
capacity: a freshly initialised table of 8 slots. -/
def mkHashMap : HashMapImpl := initTable kDefaultHashMapCapacity

/-- The scan shared by `HashMapImpl::Start` and `HashMapImpl::Next`: the
first slot `≥ j` holding a live entry, as a slot index.  The fuel
`capacity_` always suffices (`nextLoop_spec`). -/
def nextLoop (m : HashMapImpl) : Nat → Nat → Option Nat
  | 0, _ => none
  | fuel + 1, j =>
    if j < m.capacity_ then
      if (ent m.map_ j).key ≠ 0 then some j else nextLoop m fuel (j + 1)
    else none

/-- `HashMapImpl::Next`: the first live slot strictly after the cursor. -/
def Next (m : HashMapImpl) (p : Nat) : Option Nat :=
  nextLoop m m.capacity_ (p + 1)

/-- `HashMapImpl::Start`: `Next(map_ - 1)`, i.e. the scan from slot 0. -/
def Start (m : HashMapImpl) : Option Nat :=
  nextLoop m m.capacity_ 0

/-- The slot indices visited by the iteration protocol
`Start(); Next(); Next(); ...` until NULL, with fuel bounding the number
of visited entries. -/
def iterFuel (m : HashMapImpl) : Nat → Option Nat → List Nat
  | 0, _ => []
  | _ + 1, none => []
  | fuel + 1, some i => i :: iterFuel m fuel (Next m i)

/-- The complete iteration of the table. -/
def iteration (m : HashMapImpl) : List Nat :=
  iterFuel m m.capacity_ (Start m)

/-- A sequence of `LookupOrInsert` calls, one per `(key, hash)` pair. -/
def insertAll (match_ : Nat → Nat → Bool) (m : HashMapImpl) :
    List (Nat × Nat) → Option HashMapImpl
  | [] => some m
  | (k, h) :: rest =>
    match LookupOrInsert match_ m k h with
    | none => none
    | some (m', _) => insertAll match_ m' rest

/-! ## Semantic predicates -/

/-- Slot `i` of `m` holds a live entry. -/
def liveAt (m : HashMapImpl) (i : Nat) : Prop :=
  i < m.capacity_ ∧ (ent m.map_ i).key ≠ 0

instance (m : HashMapImpl) (i : Nat) : Decidable (liveAt m i) := by
  unfold liveAt; infer_instance

/-- The pair `(key, hash)` is present in the table. -/
def Contains (m : HashMapImpl) (key hash : Nat) : Prop :=
  ∃ i, i < m.capacity_ ∧ (ent m.map_ i).key = key ∧ (ent m.map_ i).key ≠ 0 ∧
    (ent m.map_ i).hash = hash

instance (m : HashMapImpl) (key hash : Nat) : Decidable (Contains m key hash) := by
  unfold Contains; infer_instance

/-- The number of live slots of the backing array. -/
def countLive (m : HashMapImpl) : Nat :=
  ((List.range m.capacity_).filter (fun i => decide ((ent m.map_ i).key ≠ 0))).length

/-- The full entry `e` occurs live in the table. -/
def MemLive (m : HashMapImpl) (e : Entry) : Prop :=
  ∃ i, i < m.capacity_ ∧ (ent m.map_ i).key ≠ 0 ∧ ent m.map_ i = e

/-- The ideal slot of the entry at slot `i`: its cached hash reduced
modulo the capacity. -/
def idealOf (m : HashMapImpl) (i : Nat) : Nat :=
  (ent m.map_ i).hash % m.capacity_

/-- Well-formedness of a table.  These are exactly the documented
invariants of the container: the capacity is a power of two, the backing
array has `capacity_` slots, `occupancy_` counts the live slots, at least
one slot is empty, the load factor is at most 80%, every live entry is
reachable by linear probing from its ideal slot without crossing an empty
slot, live `(key, hash)` pairs are pairwise distinct. -/
structure WF (m : HashMapImpl) : Prop where
  size_eq : m.map_.size = m.capacity_
  pow2 : ∃ k, m.capacity_ = 2 ^ k
  occ_eq : m.occupancy_ = countLive m
  occ_lt : m.occupancy_ < m.capacity_
  load : 5 * m.occupancy_ ≤ 4 * m.capacity_
  reach : ∀ i, i < m.capacity_ → (ent m.map_ i).key ≠ 0 →
    ∀ x, x < m.capacity_ → inPath m.capacity_ (idealOf m i) i x →
    (ent m.map_ x).key ≠ 0
  dis : ∀ i j, i < m.capacity_ → j < m.capacity_ →
    (ent m.map_ i).key ≠ 0 → (ent m.map_ j).key ≠ 0 →
    (ent m.map_ i).key = (ent m.map_ j).key →
    (ent m.map_ i).hash = (ent m.map_ j).hash → i = j

/-! ## Probe characterisation -/

/-- The stopping condition of the probe loop at slot `x`: the slot is
empty, or the cached hash matches and the match function accepts. -/
def probeStop (match_ : Nat → Nat → Bool) (A : Array Entry) (key hash x : Nat) : Prop :=
  (ent A x).key = 0 ∨ (hash = (ent A x).hash ∧ match_ key (ent A x).key = true)

instance (match_ : Nat → Nat → Bool) (A : Array Entry) (key hash x : Nat) :
    Decidable (probeStop match_ A key hash x) := by
  unfold probeStop; infer_instance

theorem probeLoop_eq_of (match_ : Nat → Nat → Bool) (A : Array Entry)
    (cap key hash : Nat) (hc : 0 < cap) :
    ∀ d s fuel, s < cap → d < fuel →
    (∀ e, e < d → ¬ probeStop match_ A key hash ((s + e) % cap)) →
    probeStop match_ A key hash ((s + d) % cap) →
    probeLoop match_ A cap key hash fuel s = some ((s + d) % cap) := by
  intro d
  induction d with
  | zero =>
    intro s fuel hs hfuel _ hstop
    obtain ⟨f, rfl⟩ := Nat.exists_eq_succ_of_ne_zero (Nat.pos_iff_ne_zero.mp hfuel)
    have hs0 : (s + 0) % cap = s := by
      rw [Nat.add_zero, Nat.mod_eq_of_lt hs]
    rw [hs0] at hstop ⊢
    unfold probeLoop
    rcases hstop with h0 | hm
    · rw [if_pos h0]
    · by_cases h0 : (ent A s).key = 0
      · rw [if_pos h0]
      · rw [if_neg h0, if_pos hm]
  | succ d ih =>
    intro s fuel hs hfuel hno hstop
    obtain ⟨f, rfl⟩ := Nat.exists_eq_succ_of_ne_zero (Nat.pos_iff_ne_zero.mp
      (by omega : 0 < fuel))
    have hno0 : ¬ probeStop match_ A key hash s := by
      have := hno 0 (by omega)
      rwa [Nat.add_zero, Nat.mod_eq_of_lt hs] at this
    have hkey : ¬ (ent A s).key = 0 := fun h => hno0 (Or.inl h)
    have hmatch : ¬ (hash = (ent A s).hash ∧ match_ key (ent A s).key = true) :=
      fun h => hno0 (Or.inr h)
    unfold probeLoop
    rw [if_neg hkey, if_neg hmatch]
    have hshift : ∀ e, ((s + 1) % cap + e) % cap = (s + (1 + e)) % cap := by
      intro e
      rw [Nat.mod_add_mod, Nat.add_assoc]
    have hrec := ih ((s + 1) % cap) f (Nat.mod_lt _ hc) (by omega)
      (fun e he => by
        rw [hshift e, Nat.add_comm 1 e]
        exact hno (e + 1) (by omega))
      (by
        rw [hshift d, Nat.add_comm 1 d]
        exact hstop)
    rw [hrec, hshift d, Nat.add_comm 1 d]

theorem probeLoop_some (match_ : Nat → Nat → Bool) (A : Array Entry)
    (cap key hash : Nat) (hc : 0 < cap) :
    ∀ fuel s i, s < cap → probeLoop match_ A cap key hash fuel s = some i →
    ∃ d, d < fuel ∧ i = (s + d) % cap ∧ probeStop match_ A key hash i ∧
      ∀ e, e < d → ¬ probeStop match_ A key hash ((s + e) % cap) := by
  intro fuel
  induction fuel with
  | zero => intro s i _ h; simp [probeLoop] at h
  | succ f ih =>
    intro s i hs h
    unfold probeLoop at h
    by_cases h0 : (ent A s).key = 0
    · rw [if_pos h0] at h
      injection h with h
      exact ⟨0, by omega, by rw [Nat.add_zero, Nat.mod_eq_of_lt hs, h],
        by rw [← h]; exact Or.inl h0, fun e he => absurd he (Nat.not_lt_zero e)⟩
    · by_cases hm : hash = (ent A s).hash ∧ match_ key (ent A s).key = true
      · rw [if_neg h0, if_pos hm] at h
        injection h with h
        exact ⟨0, by omega, by rw [Nat.add_zero, Nat.mod_eq_of_lt hs, h],
          by rw [← h]; exact Or.inr hm, fun e he => absurd he (Nat.not_lt_zero e)⟩
      · rw [if_neg h0, if_neg hm] at h
        obtain ⟨d, hd, hi, hstop, hno⟩ := ih ((s + 1) % cap) i (Nat.mod_lt _ hc) h
        refine ⟨d + 1, by omega, ?_, hstop, ?_⟩
        · rw [hi, Nat.mod_add_mod, Nat.add_assoc, Nat.add_comm 1 d]
        · intro e he
          match e with
          | 0 =>
            rw [Nat.add_zero, Nat.mod_eq_of_lt hs]
            intro hc2
            rcases hc2 with hh | hh
            · exact h0 hh
            · exact hm hh
          | e' + 1 =>
            have := hno e' (by omega)
            rwa [Nat.mod_add_mod, Nat.add_assoc, Nat.add_comm 1 e'] at this

theorem exists_empty (m : HashMapImpl) (h : countLive m < m.capacity_) :
    ∃ j, j < m.capacity_ ∧ (ent m.map_ j).key = 0 := by
  by_contra hno
  push_neg at hno
  have hall : countLive m = m.capacity_ := by
    unfold countLive
    rw [List.filter_eq_self.mpr ?_, List.length_range]
    intro i hi
    simpa using hno i (List.mem_range.mp hi)
  omega

theorem probe_start (m : HashMapImpl) (hash : Nat) (w : Nat)
    (hw : m.capacity_ = 2 ^ w) :
    Nat.land hash (m.capacity_ - 1) = hash % m.capacity_ := by
  rw [hw, land_two_pow_sub_one]

/-- On a well-formed table, probing for a pair stored at slot `t` returns
exactly `t`. -/
theorem probe_finds (m : HashMapImpl) (k h t : Nat) (hwf : WF m)
    (ht : t < m.capacity_) (hkey : (ent m.map_ t).key = k)
    (hlive : (ent m.map_ t).key ≠ 0) (hhash : (ent m.map_ t).hash = h) :
    Probe PointersMatch m k h = some t := by
  obtain ⟨w, hw⟩ := hwf.pow2
  have hc : 0 < m.capacity_ := hw ▸ Nat.pos_pow_of_pos w (by omega)
  set cap := m.capacity_ with hcap
  set s := h % cap with hsdef
  have hs : s < cap := Nat.mod_lt _ hc
  have hideal : idealOf m t = s := by
    unfold idealOf
    rw [hhash]
  have hd : dist cap s t < cap := dist_lt cap s t hc
  have key : (s + dist cap s t) % cap = t := add_dist cap s t hs ht
  unfold Probe
  rw [probe_start m h w hw, ← hsdef]
  rw [probeLoop_eq_of PointersMatch m.map_ cap k h hc (dist cap s t) s cap hs hd ?_ ?_]
  · rw [key]
  · intro e he
    have he2 : e < cap := by omega
    set x := (s + e) % cap with hx
    have hxc : x < cap := Nat.mod_lt _ hc
    have hdx : dist cap s x = e := dist_of_add cap s e hs he2
    have hxt : x ≠ t := by
      intro hxt
      rw [hxt] at hdx
      omega
    have hpath : inPath cap s t x := by
      unfold inPath
      omega
    intro hstop
    rcases hstop with h0 | hm
    · exact (hwf.reach t ht hlive x hxc (hideal ▸ hpath)) h0
    · have hkx : (ent m.map_ x).key = k := by
        have h2 := hm.2
        unfold PointersMatch at h2
        exact (beq_iff_eq.mp h2).symm
      have hlx : (ent m.map_ x).key ≠ 0 := by
        rw [hkx, ← hkey]
        exact hlive
      exact hxt (hwf.dis x t hxc ht hlx hlive (by rw [hkx, hkey])
        (by rw [← hm.1, hhash]))
  · rw [key]
    exact Or.inr ⟨hhash.symm, by unfold PointersMatch; rw [hkey]; exact beq_self_eq_true k⟩

/-- On a well-formed table, probing for an absent pair stops at an empty
slot, and every slot on the probe path before it is live. -/
theorem probe_not_contains (m : HashMapImpl) (k h : Nat) (hwf : WF m)
    (hnc : ¬ Contains m k h) :
    ∃ p, Probe PointersMatch m k h = some p ∧ p < m.capacity_ ∧
      (ent m.map_ p).key = 0 ∧
      ∀ x, x < m.capacity_ → inPath m.capacity_ (h % m.capacity_) p x → x ≠ p →
        (ent m.map_ x).key ≠ 0 := by
  obtain ⟨w, hw⟩ := hwf.pow2
  have hc : 0 < m.capacity_ := hw ▸ Nat.pos_pow_of_pos w (by omega)
  set cap := m.capacity_ with hcap
  set s := h % cap with hsdef
  have hs : s < cap := Nat.mod_lt _ hc
  obtain ⟨j, hj, hjE⟩ := exists_empty m (hwf.occ_eq ▸ hwf.occ_lt)
  have hP : ∃ e, probeStop PointersMatch m.map_ k h ((s + e) % cap) := by
    refine ⟨dist cap s j, ?_⟩
    rw [add_dist cap s j hs hj]
    exact Or.inl hjE
  set dm := Nat.find hP with hdm
  have hstop := Nat.find_spec hP
  have hmin : ∀ e, e < dm → ¬ probeStop PointersMatch m.map_ k h ((s + e) % cap) :=
    fun e he => Nat.find_min hP he
  have hdmlt : dm < cap := by
    have : dm ≤ dist cap s j := Nat.find_min' hP (by
      rw [add_dist cap s j hs hj]
      exact Or.inl hjE)
    have := dist_lt cap s j hc
    omega
  set p := (s + dm) % cap with hp
  have hpc : p < cap := Nat.mod_lt _ hc
  have hdp : dist cap s p = dm := dist_of_add cap s dm hs hdmlt
  have hempty : (ent m.map_ p).key = 0 := by
    rcases hstop with h0 | hm
    · exact h0
    · by_cases h0 : (ent m.map_ p).key = 0
      · exact h0
      · exfalso
        apply hnc
        refine ⟨p, hpc, ?_, h0, hm.1.symm⟩
        have := hm.2
        unfold PointersMatch at this
        exact (beq_iff_eq.mp this).symm
  refine ⟨p, ?_, hpc, hempty, ?_⟩
  · unfold Probe
    rw [probe_start m h w hw, ← hsdef,
      probeLoop_eq_of PointersMatch m.map_ cap k h hc dm s cap hs hdmlt hmin hstop]
  · intro x hx hpath hxp
    have hdx : dist cap s x ≤ dm := by
      unfold inPath at hpath
      omega
    have hlt : dist cap s x < dm := by
      rcases Nat.lt_or_ge (dist cap s x) dm with hl | hg
      · exact hl
      · exfalso
        apply hxp
        have : dist cap s x = dm := by omega
        rw [← add_dist cap s x hs hx, this, hp]
    have := hmin (dist cap s x) hlt
    rw [add_dist cap s x hs hx] at this
    intro h0
    exact this (Or.inl h0)

/-! ## Lookup -/

theorem lookup_found (m : HashMapImpl) (k h : Nat) (hwf : WF m)
    (hcont : Contains m k h) :
    ∃ e, Lookup PointersMatch m k h = some e ∧ e.key = k ∧ e.hash = h := by
  obtain ⟨t, ht, hk, hl, hh⟩ := hcont
  have hp := probe_finds m k h t hwf ht hk hl hh
  refine ⟨ent m.map_ t, ?_, hk, hh⟩
  unfold Lookup
  rw [hp]
  show (if (ent m.map_ t).key ≠ 0 then some (ent m.map_ t) else none) = some (ent m.map_ t)
  rw [if_pos hl]

theorem lookup_not_contains (m : HashMapImpl) (k h : Nat) (hwf : WF m)
    (hnc : ¬ Contains m k h) :
    Lookup PointersMatch m k h = none := by
  obtain ⟨p, hp, hpc, hemp, _⟩ := probe_not_contains m k h hwf hnc
  unfold Lookup
  rw [hp]
  show (if (ent m.map_ p).key ≠ 0 then some (ent m.map_ p) else none) = none
  rw [if_neg (fun hcon => hcon hemp)]

/-! ## Single-slot updates -/

/-- `m2` is `m` with entry `e` written into slot `p` and the occupancy
incremented (the shape shared by `place` and by a rehash step of
`Resize`). -/
def UpdAt (m m2 : HashMapImpl) (p : Nat) (e : Entry) : Prop :=
  m2.capacity_ = m.capacity_ ∧ m2.occupancy_ = m.occupancy_ + 1 ∧
  m2.map_.size = m.map_.size ∧ ent m2.map_ p = e ∧
  ∀ x, x ≠ p → ent m2.map_ x = ent m.map_ x

theorem place_updAt (m : HashMapImpl) (p k h : Nat) (hsz : m.map_.size = m.capacity_)
    (hp : p < m.capacity_) :
    UpdAt m (place m p k h) p ⟨k, 0, h, m.occupancy_⟩ := by
  refine ⟨rfl, rfl, size_setD _ _ _, ?_, ?_⟩
  · exact ent_setD_eq m.map_ p _ (by omega)
  · intro x hx
    exact ent_setD_ne m.map_ p x _ (fun hh => hx hh.symm)

theorem countP_range_update (p : Nat) (f g : Nat → Bool) (hf : f p = false)
    (hg : g p = true) :
    ∀ cap, p < cap → (∀ i, i < cap → i ≠ p → f i = g i) →
    (List.range cap).countP g = (List.range cap).countP f + 1 := by
  intro cap
  induction cap with
  | zero => intro hp _; omega
  | succ c ih =>
    intro hp hsame
    rw [show List.range (c + 1) = List.range c ++ [c] from List.range_succ c,
      List.countP_append, List.countP_append]
    by_cases hpc : p = c
    · subst hpc
      have hcong : (List.range p).countP g = (List.range p).countP f := by
        apply List.countP_congr
        intro i hi
        rw [hsame i (by have := List.mem_range.mp hi; omega)
          (by have := List.mem_range.mp hi; omega)]
      rw [hcong]
      simp [List.countP_cons, hf, hg]
    · have hplt : p < c := by omega
      rw [ih hplt (fun i hi hip => hsame i (by omega) hip)]
      have hfg : f c = g c := hsame c (by omega) (fun hh => hpc hh.symm)
      simp only [List.countP_cons, List.countP_nil, ← hfg]
      omega

theorem upd_countLive (m m2 : HashMapImpl) (p : Nat) (e : Entry)
    (hu : UpdAt m m2 p e) (hp : p < m.capacity_)
    (hemp : (ent m.map_ p).key = 0) (hk : e.key ≠ 0) :
    countLive m2 = countLive m + 1 := by
  obtain ⟨hcap, _, _, hep, hex⟩ := hu
  unfold countLive
  rw [hcap, ← List.countP_eq_length_filter, ← List.countP_eq_length_filter]
  refine countP_range_update p _ _ ?_ ?_ m.capacity_ hp ?_
  · simp [hemp]
  · simp [hep, hk]
  · intro i hi hip
    rw [hex i hip]

theorem upd_reach (m m2 : HashMapImpl) (p : Nat) (e : Entry)
    (hu : UpdAt m m2 p e) (hc : 0 < m.capacity_) (hp : p < m.capacity_)
    (hk : e.key ≠ 0)
    (hreach : ∀ i, i < m.capacity_ → (ent m.map_ i).key ≠ 0 →
      ∀ x, x < m.capacity_ → inPath m.capacity_ (idealOf m i) i x →
      (ent m.map_ x).key ≠ 0)
    (hpath : ∀ x, x < m.capacity_ → inPath m.capacity_ (e.hash % m.capacity_) p x →
      x ≠ p → (ent m.map_ x).key ≠ 0) :
    ∀ i, i < m2.capacity_ → (ent m2.map_ i).key ≠ 0 →
      ∀ x, x < m2.capacity_ → inPath m2.capacity_ (idealOf m2 i) i x →
      (ent m2.map_ x).key ≠ 0 := by
  obtain ⟨hcap, _, _, hep, hex⟩ := hu
  intro i hi hilive x hx hpa
  rw [hcap] at hi hx hpa
  by_cases hxp : x = p
  · rw [hxp, hep]
    exact hk
  · rw [hex x hxp]
    by_cases hip : i = p
    · subst hip
      have hideal : idealOf m2 i = e.hash % m.capacity_ := by
        unfold idealOf
        rw [hep, hcap]
      rw [hideal] at hpa
      exact hpath x hx hpa hxp
    · have hie : ent m2.map_ i = ent m.map_ i := hex i hip
      have hideal : idealOf m2 i = idealOf m i := by
        unfold idealOf
        rw [hie, hcap]
      rw [hideal] at hpa
      rw [hie] at hilive
      exact hreach i hi hilive x hx hpa

theorem upd_dis (m m2 : HashMapImpl) (p : Nat) (e : Entry)
    (hu : UpdAt m m2 p e)
    (hdis : ∀ i j, i < m.capacity_ → j < m.capacity_ →
      (ent m.map_ i).key ≠ 0 → (ent m.map_ j).key ≠ 0 →
      (ent m.map_ i).key = (ent m.map_ j).key →
      (ent m.map_ i).hash = (ent m.map_ j).hash → i = j)
    (hnc : ¬ Contains m e.key e.hash) :
    ∀ i j, i < m2.capacity_ → j < m2.capacity_ →
      (ent m2.map_ i).key ≠ 0 → (ent m2.map_ j).key ≠ 0 →
      (ent m2.map_ i).key = (ent m2.map_ j).key →
      (ent m2.map_ i).hash = (ent m2.map_ j).hash → i = j := by
  obtain ⟨hcap, _, _, hep, hex⟩ := hu
  intro i j hi hj hli hlj hkij hhij
  rw [hcap] at hi hj
  by_cases hip : i = p <;> by_cases hjp : j = p
  · rw [hip, hjp]
  · exfalso
    rw [hip, hep] at hkij hhij
    rw [hex j hjp] at hkij hhij hlj
    exact hnc ⟨j, hj, hkij.symm, hlj, hhij.symm⟩
  · exfalso
    rw [hjp, hep] at hkij hhij
    rw [hex i hip] at hkij hhij hli
    exact hnc ⟨i, hi, hkij, hli, hhij⟩
  · rw [hex i hip] at hkij hhij hli
    rw [hex j hjp] at hkij hhij hlj
    exact hdis i j hi hj hli hlj hkij hhij

theorem upd_contains_iff (m m2 : HashMapImpl) (p : Nat) (e : Entry)
    (hu : UpdAt m m2 p e) (hp : p < m.capacity_)
    (hemp : (ent m.map_ p).key = 0) (hk : e.key ≠ 0) :
    ∀ k2 h2, Contains m2 k2 h2 ↔ Contains m k2 h2 ∨ (k2 = e.key ∧ h2 = e.hash) := by
  obtain ⟨hcap, _, _, hep, hex⟩ := hu
  intro k2 h2
  constructor
  · rintro ⟨i, hi, hki, hli, hhi⟩
    rw [hcap] at hi
    by_cases hip : i = p
    · rw [hip, hep] at hki hhi
      exact Or.inr ⟨hki.symm, hhi.symm⟩
    · rw [hex i hip] at hki hli hhi
      exact Or.inl ⟨i, hi, hki, hli, hhi⟩
  · rintro (⟨i, hi, hki, hli, hhi⟩ | ⟨hkk, hhh⟩)
    · have hip : i ≠ p := by
        intro hh
        rw [hh] at hli
        exact hli hemp
      exact ⟨i, hcap ▸ hi, by rw [hex i hip]; exact hki, by rw [hex i hip]; exact hli,
        by rw [hex i hip]; exact hhi⟩
    · exact ⟨p, hcap ▸ hp, by rw [hep, hkk], by rw [hep]; exact hk, by rw [hep, hhh]⟩

theorem upd_memLive_iff (m m2 : HashMapImpl) (p : Nat) (e : Entry)
    (hu : UpdAt m m2 p e) (hp : p < m.capacity_)
    (hemp : (ent m.map_ p).key = 0) (hk : e.key ≠ 0) :
    ∀ x, MemLive m2 x ↔ MemLive m x ∨ x = e := by
  obtain ⟨hcap, _, _, hep, hex⟩ := hu
  intro x
  constructor
  · rintro ⟨i, hi, hli, hei⟩
    rw [hcap] at hi
    by_cases hip : i = p
    · rw [hip, hep] at hei
      exact Or.inr hei.symm
    · rw [hex i hip] at hli hei
      exact Or.inl ⟨i, hi, hli, hei⟩
  · rintro (⟨i, hi, hli, hei⟩ | hxe)
    · have hip : i ≠ p := by
        intro hh
        rw [hh] at hli
        exact hli hemp
      exact ⟨i, hcap ▸ hi, by rw [hex i hip]; exact hli, by rw [hex i hip]; exact hei⟩
    · exact ⟨p, hcap ▸ hp, by rw [hep]; exact hk, by rw [hep, hxe]⟩

/-! ## Bridges between the backing array and its list of entries -/

theorem countP_eq_range (f : Entry → Bool) :
    ∀ l : List Entry, l.countP f =
      ((List.range l.length).filter (fun i => f (l.getD i ⟨0, 0, 0, 0⟩))).length := by
  intro l
  induction l with
  | nil => simp
  | cons x xs ih =>
    show (x :: xs).countP f = ((List.range (xs.length + 1)).filter _).length
    rw [List.countP_cons, List.range_succ_eq_map, List.filter_cons]
    simp only [List.getD_cons_zero, List.getD_cons_succ, List.filter_map,
      Function.comp_def]
    split
    · rename_i hfx
      simp [hfx, List.length_map, ih]
    · rename_i hfx
      simp [hfx, List.length_map, ih]

theorem ent_eq_toList_getD (A : Array Entry) (i : Nat) :
    ent A i = A.toList.getD i ⟨0, 0, 0, 0⟩ := by
  unfold ent Array.getD
  split
  · rename_i h
    rw [List.getD_eq_getElem?_getD, List.getElem?_eq_getElem (by simpa using h)]
    simp [Array.getElem_toList]
  · rename_i h
    rw [List.getD_eq_getElem?_getD, List.getElem?_eq_none (by simpa using h)]
    rfl

theorem countLive_toList (m : HashMapImpl) (hsz : m.map_.size = m.capacity_) :
    m.map_.toList.countP (fun e => decide (e.key ≠ 0)) = countLive m := by
  rw [countP_eq_range (fun e => decide (e.key ≠ 0)) m.map_.toList]
  unfold countLive
  have hlen : m.map_.toList.length = m.capacity_ := by simp [hsz]
  rw [hlen]
  congr 1
  apply List.filter_congr
  intro i hi
  rw [← ent_eq_toList_getD]

theorem memLive_toList (m : HashMapImpl) (hsz : m.map_.size = m.capacity_)
    (e : Entry) (he : e.key ≠ 0) :
    (e ∈ m.map_.toList) ↔ MemLive m e := by
  constructor
  · intro hmem
    obtain ⟨i, hi, hei⟩ := Array.getElem_of_mem (Array.mem_toList.mp hmem)
    refine ⟨i, hsz ▸ hi, ?_, ?_⟩
    · rw [ent_eq_getElem m.map_ i hi, hei]
      exact he
    · rw [ent_eq_getElem m.map_ i hi, hei]
  · rintro ⟨i, hi, hli, hei⟩
    have hi2 : i < m.map_.size := by omega
    rw [← hei, ent_eq_getElem m.map_ i hi2]
    exact Array.mem_toList.mpr (Array.getElem_mem hi2)

theorem toList_pairwise_dis (m : HashMapImpl) (hsz : m.map_.size = m.capacity_)
    (hdis : ∀ i j, i < m.capacity_ → j < m.capacity_ →
      (ent m.map_ i).key ≠ 0 → (ent m.map_ j).key ≠ 0 →
      (ent m.map_ i).key = (ent m.map_ j).key →
      (ent m.map_ i).hash = (ent m.map_ j).hash → i = j) :
    List.Pairwise (fun e1 e2 => e1.key ≠ 0 → e2.key ≠ 0 →
      ¬ (e1.key = e2.key ∧ e1.hash = e2.hash)) m.map_.toList := by
  rw [List.pairwise_iff_getElem]
  intro i j hi hj hij hl1 hl2 hpair
  have hi2 : i < m.map_.size := by simpa using hi
  have hj2 : j < m.map_.size := by simpa using hj
  have hei : ent m.map_ i = m.map_.toList[i] := by
    rw [ent_eq_getElem m.map_ i hi2]
    simp [Array.getElem_toList]
  have hej : ent m.map_ j = m.map_.toList[j] := by
    rw [ent_eq_getElem m.map_ j hj2]
    simp [Array.getElem_toList]
  have := hdis i j (by omega) (by omega) (by rw [hei]; exact hl1)
    (by rw [hej]; exact hl2) (by rw [hei, hej]; exact hpair.1)
    (by rw [hei, hej]; exact hpair.2)
  omega

/-! ## The empty table -/

theorem initTable_ent (cap i : Nat) : ent (initTable cap).map_ i = ⟨0, 0, 0, 0⟩ := by
  unfold initTable ent Array.getD
  split
  · rw [Array.get_eq_getElem, Array.getElem_mkArray]
  · rfl

theorem initTable_countLive (cap : Nat) : countLive (initTable cap) = 0 := by
  unfold countLive
  rw [List.length_eq_zero]
  apply List.filter_eq_nil.mpr
  intro i _
  simp [initTable_ent]

theorem initTable_WF (cap : Nat) (h2 : ∃ w, cap = 2 ^ w) : WF (initTable cap) := by
  obtain ⟨w, hw⟩ := h2
  have hc : 0 < cap := hw ▸ Nat.pos_pow_of_pos w (by omega)
  refine ⟨?_, ⟨w, hw⟩, ?_, ?_, ?_, ?_, ?_⟩
  · exact Array.size_mkArray cap _
  · rw [initTable_countLive]
    rfl
  · exact hc
  · show 5 * 0 ≤ 4 * cap
    omega
  · intro i hi hlive
    rw [initTable_ent] at hlive
    exact absurd rfl hlive
  · intro i j hi hj hli
    rw [initTable_ent] at hli
    exact absurd rfl hli

theorem initTable_not_contains (cap k h : Nat) : ¬ Contains (initTable cap) k h := by
  rintro ⟨i, hi, hk, hl, hh⟩
  rw [initTable_ent] at hl
  exact hl rfl

theorem initTable_not_memLive (cap : Nat) (e : Entry) : ¬ MemLive (initTable cap) e := by
  rintro ⟨i, hi, hl, he⟩
  rw [initTable_ent] at hl
  exact hl rfl

/-! ## Unfolding the insertion path -/

theorem insertCore_found (match_ : Nat → Nat → Bool)
    (og : HashMapImpl → Option HashMapImpl) (m : HashMapImpl) (key hash p : Nat)
    (hprobe : Probe match_ m key hash = some p)
    (hlive : (ent m.map_ p).key ≠ 0) :
    insertCore match_ og m key hash = some (m, p) := by
  unfold insertCore
  rw [hprobe]
  dsimp only
  rw [if_pos hlive]

theorem insertCore_new (match_ : Nat → Nat → Bool)
    (og : HashMapImpl → Option HashMapImpl) (m : HashMapImpl) (key hash p : Nat)
    (hprobe : Probe match_ m key hash = some p)
    (hemp : (ent m.map_ p).key = 0)
    (hng : growthCheck (m.occupancy_ + 1) m.capacity_ = false) :
    insertCore match_ og m key hash = some (place m p key hash, p) := by
  unfold insertCore
  rw [hprobe]
  dsimp only
  rw [if_neg (fun hcon => hcon hemp)]
  rw [if_neg (by
    show ¬ (growthCheck (place m p key hash).occupancy_ (place m p key hash).capacity_ = true)
    rw [show (place m p key hash).occupancy_ = m.occupancy_ + 1 from rfl,
      show (place m p key hash).capacity_ = m.capacity_ from rfl, hng]
    simp)]

theorem insertCore_grow (match_ : Nat → Nat → Bool)
    (og : HashMapImpl → Option HashMapImpl) (m : HashMapImpl) (key hash p : Nat)
    (m2 : HashMapImpl) (p2 : Nat)
    (hprobe : Probe match_ m key hash = some p)
    (hemp : (ent m.map_ p).key = 0)
    (hg : growthCheck (m.occupancy_ + 1) m.capacity_ = true)
    (hog : og (place m p key hash) = some m2)
    (hprobe2 : Probe match_ m2 key hash = some p2) :
    insertCore match_ og m key hash = some (m2, p2) := by
  unfold insertCore
  rw [hprobe]
  dsimp only
  rw [if_neg (fun hcon => hcon hemp)]
  rw [if_pos (by
    show growthCheck (place m p key hash).occupancy_ (place m p key hash).capacity_ = true
    rw [show (place m p key hash).occupancy_ = m.occupancy_ + 1 from rfl,
      show (place m p key hash).capacity_ = m.capacity_ from rfl, hg])]
  rw [hog]
  dsimp only
  rw [hprobe2]

theorem lookupOrInsertF_zero (match_ : Nat → Nat → Bool) :
    lookupOrInsertF match_ 0 = insertCore match_ (fun _ => none) := rfl

theorem lookupOrInsertF_succ (match_ : Nat → Nat → Bool) (fuel : Nat) :
    lookupOrInsertF match_ (fuel + 1) =
      insertCore match_ (fun m1 => resizeF (lookupOrInsertF match_ fuel) m1) := rfl

theorem lookupOrInsertF_found (match_ : Nat → Nat → Bool) (fuel : Nat)
    (m : HashMapImpl) (key hash p : Nat)
    (hprobe : Probe match_ m key hash = some p)
    (hlive : (ent m.map_ p).key ≠ 0) :
    lookupOrInsertF match_ fuel m key hash = some (m, p) := by
  cases fuel with
  | zero => rw [lookupOrInsertF_zero]; exact insertCore_found _ _ m key hash p hprobe hlive
  | succ f => rw [lookupOrInsertF_succ]; exact insertCore_found _ _ m key hash p hprobe hlive

theorem lookupOrInsertF_new_noGrow (match_ : Nat → Nat → Bool) (fuel : Nat)
    (m : HashMapImpl) (key hash p : Nat)
    (hprobe : Probe match_ m key hash = some p)
    (hemp : (ent m.map_ p).key = 0)
    (hng : growthCheck (m.occupancy_ + 1) m.capacity_ = false) :
    lookupOrInsertF match_ fuel m key hash = some (place m p key hash, p) := by
  cases fuel with
  | zero => rw [lookupOrInsertF_zero]; exact insertCore_new _ _ m key hash p hprobe hemp hng
  | succ f => rw [lookupOrInsertF_succ]; exact insertCore_new _ _ m key hash p hprobe hemp hng

/-- Probing for an absent, non-NULL key on a well-formed table finds an
empty slot `p`, and any table obtained by writing an entry carrying that
pair into `p` (with any value and order) and bumping the occupancy keeps
every structural invariant, gains exactly that entry, and contains exactly
the old pairs plus the new one. -/
theorem insert_step (m : HashMapImpl) (k h : Nat) (hwf : WF m) (hk : k ≠ 0)
    (hnc : ¬ Contains m k h) :
    ∃ p, Probe PointersMatch m k h = some p ∧ p < m.capacity_ ∧
      (ent m.map_ p).key = 0 ∧
      ∀ (m2 : HashMapImpl) (e : Entry), UpdAt m m2 p e → e.key = k → e.hash = h →
        countLive m2 = countLive m + 1 ∧
        (∀ i, i < m2.capacity_ → (ent m2.map_ i).key ≠ 0 →
          ∀ x, x < m2.capacity_ → inPath m2.capacity_ (idealOf m2 i) i x →
          (ent m2.map_ x).key ≠ 0) ∧
        (∀ i j, i < m2.capacity_ → j < m2.capacity_ →
          (ent m2.map_ i).key ≠ 0 → (ent m2.map_ j).key ≠ 0 →
          (ent m2.map_ i).key = (ent m2.map_ j).key →
          (ent m2.map_ i).hash = (ent m2.map_ j).hash → i = j) ∧
        (∀ k2 h2, Contains m2 k2 h2 ↔ Contains m k2 h2 ∨ (k2 = k ∧ h2 = h)) ∧
        (∀ x, MemLive m2 x ↔ MemLive m x ∨ x = e) := by
  obtain ⟨w, hw⟩ := hwf.pow2
  have hc : 0 < m.capacity_ := hw ▸ Nat.pos_pow_of_pos w (by omega)
  obtain ⟨p, hprobe, hpc, hemp, hpath⟩ := probe_not_contains m k h hwf hnc
  refine ⟨p, hprobe, hpc, hemp, ?_⟩
  intro m2 e hu hek heh
  have hnc2 : ¬ Contains m e.key e.hash := by
    rw [hek, heh]
    exact hnc
  refine ⟨upd_countLive m m2 p e hu hpc hemp (by rw [hek]; exact hk), ?_, ?_, ?_, ?_⟩
  · exact upd_reach m m2 p e hu hc hpc (by rw [hek]; exact hk) hwf.reach
      (by rw [heh]; exact hpath)
  · exact upd_dis m m2 p e hu hwf.dis hnc2
  · intro k2 h2
    rw [upd_contains_iff m m2 p e hu hpc hemp (by rw [hek]; exact hk) k2 h2, hek, heh]
  · exact upd_memLive_iff m m2 p e hu hpc hemp (by rw [hek]; exact hk)

/-! ## The rehash loop -/

/-- Correctness of the rehash loop of `Resize`: starting from a well-formed
accumulator table of capacity `2 * c` with enough room, re-inserting the
`n` live entries of `l` (whose pairs are fresh and pairwise distinct)
succeeds, preserves well-formedness, adds exactly the live entries of `l`,
and never fires the growth test (so any recursion fuel works). -/
theorem resizeLoopF_spec (fuel c : Nat) (hc : 0 < c) :
    ∀ (l : List Entry) (n : Nat) (acc : HashMapImpl),
    WF acc →
    acc.capacity_ = 2 * c →
    acc.occupancy_ + n ≤ c →
    l.countP (fun e => decide (e.key ≠ 0)) = n →
    (∀ e, e ∈ l → e.key ≠ 0 → ¬ Contains acc e.key e.hash) →
    List.Pairwise (fun e1 e2 => e1.key ≠ 0 → e2.key ≠ 0 →
      ¬ (e1.key = e2.key ∧ e1.hash = e2.hash)) l →
    ∃ m2, resizeLoopF (lookupOrInsertF PointersMatch fuel) l n acc = some m2 ∧
      WF m2 ∧ m2.capacity_ = acc.capacity_ ∧ m2.occupancy_ = acc.occupancy_ + n ∧
      (∀ x, MemLive m2 x ↔ MemLive acc x ∨ (x ∈ l ∧ x.key ≠ 0)) ∧
      (∀ k h, Contains m2 k h ↔ Contains acc k h ∨
        ∃ e, e ∈ l ∧ e.key ≠ 0 ∧ e.key = k ∧ e.hash = h) := by
  intro l
  induction l with
  | nil =>
    intro n acc hwf hcap hocc hcount hdisj hpw
    rw [List.countP_nil] at hcount
    subst hcount
    refine ⟨acc, rfl, hwf, rfl, by omega, ?_, ?_⟩
    · intro x
      simp
    · intro k h
      simp
  | cons e rest ih =>
    intro n acc hwf hcap hocc hcount hdisj hpw
    cases n with
    | zero =>
      have hdead : ∀ x ∈ e :: rest, x.key = 0 := by
        intro x hx
        have := List.countP_eq_zero.mp hcount x hx
        simpa using this
      refine ⟨acc, rfl, hwf, rfl, by omega, ?_, ?_⟩
      · intro x
        constructor
        · exact Or.inl
        · rintro (hx | ⟨hx, hk⟩)
          · exact hx
          · exact absurd (hdead x hx) hk
      · intro k h
        constructor
        · exact Or.inl
        · rintro (hx | ⟨x, hx, hk, _, _⟩)
          · exact hx
          · exact absurd (hdead x hx) hk
    | succ n1 =>
      by_cases he : e.key = 0
      · have hcount2 : rest.countP (fun e => decide (e.key ≠ 0)) = n1 + 1 := by
          rw [List.countP_cons] at hcount
          simpa [he] using hcount
        obtain ⟨m2, hrun, hwf2, hcap2, hocc2, hmem2, hcont2⟩ :=
          ih (n1 + 1) acc hwf hcap hocc hcount2
            (fun x hx => hdisj x (List.mem_cons_of_mem e hx))
            (List.pairwise_cons.mp hpw).2
        refine ⟨m2, ?_, hwf2, hcap2, hocc2, ?_, ?_⟩
        · unfold resizeLoopF
          rw [if_neg (fun hcon => hcon he)]
          exact hrun
        · intro x
          rw [hmem2 x]
          constructor
          · rintro (hx | ⟨hx, hk⟩)
            · exact Or.inl hx
            · exact Or.inr ⟨List.mem_cons_of_mem e hx, hk⟩
          · rintro (hx | ⟨hx, hk⟩)
            · exact Or.inl hx
            · rcases List.mem_cons.mp hx with hxe | hx2
              · exact absurd (hxe ▸ he) hk
              · exact Or.inr ⟨hx2, hk⟩
        · intro k h
          rw [hcont2 k h]
          constructor
          · rintro (hx | ⟨x, hx, hk, hkk, hhh⟩)
            · exact Or.inl hx
            · exact Or.inr ⟨x, List.mem_cons_of_mem e hx, hk, hkk, hhh⟩
          · rintro (hx | ⟨x, hx, hk, hkk, hhh⟩)
            · exact Or.inl hx
            · rcases List.mem_cons.mp hx with hxe | hx2
              · exact absurd (hxe ▸ he) hk
              · exact Or.inr ⟨x, hx2, hk, hkk, hhh⟩
      · -- e is live: insert it into the accumulator.
        have hnc : ¬ Contains acc e.key e.hash :=
          hdisj e (List.mem_cons_self e rest) he
        obtain ⟨p, hprobe, hpc, hemp, hfacts⟩ := insert_step acc e.key e.hash hwf he hnc
        have hng : growthCheck (acc.occupancy_ + 1) acc.capacity_ = false := by
          have h1 : acc.occupancy_ + 1 ≤ c := by omega
          simp only [growthCheck, hcap, decide_eq_false_iff_not, not_le]
          omega
        have hins := lookupOrInsertF_new_noGrow PointersMatch fuel acc e.key e.hash p
          hprobe hemp hng
        have hps : p < acc.map_.size := by
          rw [hwf.size_eq]
          exact hpc
        have hupd1 : UpdAt acc (place acc p e.key e.hash) p
            ⟨e.key, 0, e.hash, acc.occupancy_⟩ :=
          place_updAt acc p e.key e.hash hwf.size_eq hpc
        set acc1 := place acc p e.key e.hash with hacc1
        have hentp : ent acc1.map_ p = ⟨e.key, 0, e.hash, acc.occupancy_⟩ :=
          hupd1.2.2.2.1
        set e2 : Entry := { ent acc1.map_ p with value := e.value, order := e.order }
          with he2def
        set acc2 : HashMapImpl := { acc1 with map_ := acc1.map_.setD p e2 } with hacc2
        have he2 : e2 = e := by
          rw [he2def, hentp]
        have hps1 : p < acc1.map_.size := by
          rw [hupd1.2.2.1]
          exact hps
        have hupd : UpdAt acc acc2 p e := by
          refine ⟨hupd1.1, hupd1.2.1, ?_, ?_, ?_⟩
          · rw [show acc2.map_ = acc1.map_.setD p e2 from rfl, size_setD]
            exact hupd1.2.2.1
          · rw [show acc2.map_ = acc1.map_.setD p e2 from rfl,
              ent_setD_eq acc1.map_ p e2 hps1, he2]
          · intro x hx
            rw [show acc2.map_ = acc1.map_.setD p e2 from rfl,
              ent_setD_ne acc1.map_ p x e2 (fun hh => hx hh.symm), hupd1.2.2.2.2 x hx]
        obtain ⟨hcl2, hreach2, hdis2, hcont2, hmem2⟩ := hfacts acc2 e hupd rfl rfl
        have hwf2 : WF acc2 := by
          refine ⟨?_, ?_, ?_, ?_, ?_, hreach2, hdis2⟩
          · rw [hupd.2.2.1, hwf.size_eq, hupd.1]
          · rw [hupd.1]
            exact hwf.pow2
          · rw [hupd.2.1, hcl2, hwf.occ_eq]
          · rw [hupd.2.1, hupd.1, hcap]
            omega
          · rw [hupd.2.1, hupd.1, hcap]
            omega
        have hcount2 : rest.countP (fun e => decide (e.key ≠ 0)) = n1 := by
          rw [List.countP_cons] at hcount
          simp only [decide_eq_true_eq] at hcount
          rw [if_pos he] at hcount
          omega
        have hdisj2 : ∀ x, x ∈ rest → x.key ≠ 0 → ¬ Contains acc2 x.key x.hash := by
          intro x hx hkx hcon
          rcases (hcont2 x.key x.hash).mp hcon with hcon1 | ⟨hkk, hhh⟩
          · exact hdisj x (List.mem_cons_of_mem e hx) hkx hcon1
          · exact ((List.pairwise_cons.mp hpw).1 x hx) he hkx ⟨hkk.symm, hhh.symm⟩
        obtain ⟨m2, hrun, hwfm2, hcapm2, hoccm2, hmemm2, hcontm2⟩ :=
          ih n1 acc2 hwf2 (by rw [hupd.1]; exact hcap)
            (by rw [hupd.2.1]; omega) hcount2 hdisj2 (List.pairwise_cons.mp hpw).2
        refine ⟨m2, by unfold resizeLoopF; rw [if_pos he, hins]; exact hrun, hwfm2,
          by rw [hcapm2, hupd.1],
          by rw [hoccm2, hupd.2.1]; omega, ?_, ?_⟩
        · intro x
          rw [hmemm2 x, hmem2 x]
          constructor
          · rintro ((hx | hxe) | ⟨hx, hk⟩)
            · exact Or.inl hx
            · exact Or.inr ⟨hxe ▸ List.mem_cons_self e rest, hxe ▸ he⟩
            · exact Or.inr ⟨List.mem_cons_of_mem e hx, hk⟩
          · rintro (hx | ⟨hx, hk⟩)
            · exact Or.inl (Or.inl hx)
            · rcases List.mem_cons.mp hx with hxe | hx2
              · exact Or.inl (Or.inr hxe)
              · exact Or.inr ⟨hx2, hk⟩
        · intro k h
          rw [hcontm2 k h, hcont2 k h]
          constructor
          · rintro ((hx | ⟨hkk, hhh⟩) | ⟨x, hx, hk, hkk, hhh⟩)
            · exact Or.inl hx
            · exact Or.inr ⟨e, List.mem_cons_self e rest, he, hkk.symm, hhh.symm⟩
            · exact Or.inr ⟨x, List.mem_cons_of_mem e hx, hk, hkk, hhh⟩
          · rintro (hx | ⟨x, hx, hk, hkk, hhh⟩)
            · exact Or.inl (Or.inl hx)
            · rcases List.mem_cons.mp hx with hxe | hx2
              · exact Or.inl (Or.inr ⟨by rw [← hxe]; exact hkk.symm,
                  by rw [← hxe]; exact hhh.symm⟩)
              · exact Or.inr ⟨x, hx2, hk, hkk, hhh⟩

theorem contains_toList (m : HashMapImpl) (hsz : m.map_.size = m.capacity_)
    (k h : Nat) :
    (∃ e, e ∈ m.map_.toList ∧ e.key ≠ 0 ∧ e.key = k ∧ e.hash = h) ↔
      Contains m k h := by
  constructor
  · rintro ⟨e, hmem, hl, hk, hh⟩
    obtain ⟨i, hi, hei⟩ := Array.getElem_of_mem (Array.mem_toList.mp hmem)
    refine ⟨i, hsz ▸ hi, ?_, ?_, ?_⟩ <;> rw [ent_eq_getElem m.map_ i hi, hei]
    · exact hk
    · exact hl
    · exact hh
  · rintro ⟨i, hi, hk, hl, hh⟩
    have hi2 : i < m.map_.size := by omega
    refine ⟨ent m.map_ i, ?_, hl, hk, hh⟩
    rw [ent_eq_getElem m.map_ i hi2]
    exact Array.mem_toList.mpr (Array.getElem_mem hi2)

/-- Correctness of `HashMapImpl::Resize`: on a table whose structural
invariants hold (occupancy may equal the capacity, as is the case right
after the triggering insertion), the rehash succeeds, doubles the
capacity, and the new table holds exactly the same live entries (values
and orders included) and the same pairs, with the same occupancy. -/
theorem resizeF_spec (fuel : Nat) (m : HashMapImpl)
    (hsz : m.map_.size = m.capacity_) (hpow : ∃ w, m.capacity_ = 2 ^ w)
    (hocc_eq : m.occupancy_ = countLive m) (hocc_le : m.occupancy_ ≤ m.capacity_)
    (hdis : ∀ i j, i < m.capacity_ → j < m.capacity_ →
      (ent m.map_ i).key ≠ 0 → (ent m.map_ j).key ≠ 0 →
      (ent m.map_ i).key = (ent m.map_ j).key →
      (ent m.map_ i).hash = (ent m.map_ j).hash → i = j) :
    ∃ m2, resizeF (lookupOrInsertF PointersMatch fuel) m = some m2 ∧ WF m2 ∧
      m2.capacity_ = m.capacity_ * 2 ∧ m2.occupancy_ = m.occupancy_ ∧
      (∀ x, MemLive m2 x ↔ MemLive m x) ∧
      (∀ k h, Contains m2 k h ↔ Contains m k h) := by
  obtain ⟨w, hw⟩ := hpow
  have hc : 0 < m.capacity_ := hw ▸ Nat.pos_pow_of_pos w (by omega)
  have hwfa : WF (initTable (m.capacity_ * 2)) :=
    initTable_WF _ ⟨w + 1, by rw [hw, pow_succ]⟩
  obtain ⟨m2, hrun, hwf2, hcap2, hocc2, hmem2, hcont2⟩ :=
    resizeLoopF_spec fuel m.capacity_ hc m.map_.toList m.occupancy_
      (initTable (m.capacity_ * 2)) hwfa
      (by show m.capacity_ * 2 = 2 * m.capacity_; omega)
      (by show 0 + m.occupancy_ ≤ m.capacity_; omega)
      (by rw [countLive_toList m hsz, hocc_eq])
      (fun e _ _ => initTable_not_contains _ e.key e.hash)
      (toList_pairwise_dis m hsz hdis)
  refine ⟨m2, hrun, hwf2, by rw [hcap2]; rfl,
    by rw [hocc2]; show 0 + m.occupancy_ = m.occupancy_; omega, ?_, ?_⟩
  · intro x
    rw [hmem2 x]
    constructor
    · rintro (hx | ⟨hx, hk⟩)
      · exact absurd hx (initTable_not_memLive _ x)
      · exact (memLive_toList m hsz x hk).mp hx
    · intro hx
      have hk : x.key ≠ 0 := by
        obtain ⟨i, hi, hl, hei⟩ := hx
        rw [← hei]
        exact hl
      exact Or.inr ⟨(memLive_toList m hsz x hk).mpr hx, hk⟩
  · intro k h
    rw [hcont2 k h]
    constructor
    · rintro (hx | ⟨e, hmem, hl, hk, hh⟩)
      · exact absurd hx (initTable_not_contains _ k h)
      · exact (contains_toList m hsz k h).mp ⟨e, hmem, hl, hk, hh⟩
    · intro hx
      exact Or.inr ((contains_toList m hsz k h).mpr hx)

/-- `LookupOrInsert` on an existing pair returns the holding slot and does
not change the table. -/
theorem lookupOrInsert_found (m : HashMapImpl) (k h t : Nat) (hwf : WF m)
    (ht : t < m.capacity_) (hkey : (ent m.map_ t).key = k)
    (hlive : (ent m.map_ t).key ≠ 0) (hhash : (ent m.map_ t).hash = h) :
    LookupOrInsert PointersMatch m k h = some (m, t) := by
  unfold LookupOrInsert
  exact lookupOrInsertF_found PointersMatch 1 m k h t
    (probe_finds m k h t hwf ht hkey hlive hhash) hlive

/-- `LookupOrInsert` on an absent pair with a non-NULL key succeeds,
preserves well-formedness, places the entry `(k, NULL, h, occupancy)`,
increments the occupancy, doubles the capacity exactly when the growth
test fires, and leaves every other entry (and pair) in place. -/
theorem lookupOrInsert_new (m : HashMapImpl) (k h : Nat) (hwf : WF m)
    (hk : k ≠ 0) (hnc : ¬ Contains m k h) :
    ∃ m1 p, LookupOrInsert PointersMatch m k h = some (m1, p) ∧ WF m1 ∧
      p < m1.capacity_ ∧ (ent m1.map_ p).key = k ∧ (ent m1.map_ p).hash = h ∧
      m1.occupancy_ = m.occupancy_ + 1 ∧
      (if growthCheck (m.occupancy_ + 1) m.capacity_ then
        m1.capacity_ = m.capacity_ * 2 else m1.capacity_ = m.capacity_) ∧
      (∀ k2 h2, Contains m1 k2 h2 ↔ Contains m k2 h2 ∨ (k2 = k ∧ h2 = h)) ∧
      (∀ x, MemLive m1 x ↔ MemLive m x ∨ x = ⟨k, 0, h, m.occupancy_⟩) := by
  obtain ⟨w, hw⟩ := hwf.pow2
  have hc : 0 < m.capacity_ := hw ▸ Nat.pos_pow_of_pos w (by omega)
  obtain ⟨p, hprobe, hpc, hemp, hfacts⟩ := insert_step m k h hwf hk hnc
  have hupd1 : UpdAt m (place m p k h) p ⟨k, 0, h, m.occupancy_⟩ :=
    place_updAt m p k h hwf.size_eq hpc
  obtain ⟨hcl1, hreach1, hdis1, hcont1, hmem1⟩ :=
    hfacts (place m p k h) ⟨k, 0, h, m.occupancy_⟩ hupd1 rfl rfl
  by_cases hg : growthCheck (m.occupancy_ + 1) m.capacity_ = true
  · -- growth fires: Resize, then re-probe in the doubled table.
    have hsz1 : (place m p k h).map_.size = (place m p k h).capacity_ := by
      rw [hupd1.2.2.1, hwf.size_eq, hupd1.1]
    have hocc1 : (place m p k h).occupancy_ = countLive (place m p k h) := by
      rw [hupd1.2.1, hcl1, hwf.occ_eq]
    obtain ⟨m2, hrun, hwf2, hcap2, hocc2, hmem2, hcont2⟩ :=
      resizeF_spec 0 (place m p k h) hsz1
        (by rw [hupd1.1]; exact hwf.pow2) hocc1
        (by rw [hupd1.2.1, hupd1.1]; have := hwf.occ_lt; omega) hdis1
    have hcont2k : Contains m2 k h := by
      rw [hcont2 k h, hcont1 k h]
      exact Or.inr ⟨rfl, rfl⟩
    obtain ⟨t, ht, hkt, hlt, hht⟩ := hcont2k
    have hprobe2 : Probe PointersMatch m2 k h = some t :=
      probe_finds m2 k h t hwf2 ht hkt hlt hht
    refine ⟨m2, t, ?_, hwf2, ht, hkt, hht, ?_, ?_, ?_, ?_⟩
    · unfold LookupOrInsert
      rw [lookupOrInsertF_succ]
      exact insertCore_grow PointersMatch _ m k h p m2 t hprobe hemp hg
        (by exact hrun) hprobe2
    · rw [hocc2, hupd1.2.1]
    · rw [if_pos hg, hcap2, hupd1.1]
    · intro k2 h2
      rw [hcont2 k2 h2, hcont1 k2 h2]
    · intro x
      rw [hmem2 x, hmem1 x]
  · -- no growth: the placed table is returned unchanged.
    have hg2 : growthCheck (m.occupancy_ + 1) m.capacity_ = false := by
      rw [Bool.eq_false_iff]
      exact hg
    have hng : ¬ (m.occupancy_ + 1 + (m.occupancy_ + 1) / 4 ≥ m.capacity_) := by
      simpa [growthCheck] using hg2
    have hwf1 : WF (place m p k h) := by
      refine ⟨?_, ?_, ?_, ?_, ?_, hreach1, hdis1⟩
      · rw [hupd1.2.2.1, hwf.size_eq, hupd1.1]
      · rw [hupd1.1]
        exact hwf.pow2
      · rw [hupd1.2.1, hcl1, hwf.occ_eq]
      · rw [hupd1.2.1, hupd1.1]
        omega
      · rw [hupd1.2.1, hupd1.1]
        omega
    have hentp : ent (place m p k h).map_ p = ⟨k, 0, h, m.occupancy_⟩ :=
      hupd1.2.2.2.1
    refine ⟨place m p k h, p, ?_, hwf1, ?_, ?_, ?_, hupd1.2.1, ?_, hcont1, hmem1⟩
    · unfold LookupOrInsert
      exact lookupOrInsertF_new_noGrow PointersMatch 1 m k h p hprobe hemp hg2
    · rw [hupd1.1]
      exact hpc
    · rw [hentp]
    · rw [hentp]
    · rw [if_neg (by rw [hg2]; simp), hupd1.1]

/-! ## The growth test -/

theorem growthCheck_iff (o c : Nat) : growthCheck o c = true ↔ 5 * o ≥ 4 * c := by
  simp only [growthCheck, decide_eq_true_eq, ge_iff_le]
  omega

/-! ## The cyclic-interval test of Remove -/

/-- The raw test of lines 184-185 moves the entry at `q` exactly when its
ideal slot `r` lies outside the cyclic half-open interval `(p, q]`. -/
theorem moveCond_iff (cap p q r : Nat) (hc : 0 < cap) (hp : p < cap) (hq : q < cap)
    (hr : r < cap) (hne : p ≠ q) :
    moveCond p q r = true ↔ ¬ (0 < dist cap p r ∧ dist cap p r ≤ dist cap p q) := by
  unfold moveCond
  simp only [Bool.or_eq_true, Bool.and_eq_true, decide_eq_true_eq]
  rw [dist_eq cap p r hp hr, dist_eq cap p q hp hq]
  split_ifs <;> omega

/-- One iteration of the back-shift loop on a non-empty scan slot follows
exactly the half-open cyclic-interval rule: the entry at `q+1` is left in
place when its ideal slot lies in `(p, q+1]`, and is otherwise moved into
`p`, which becomes the new clearing candidate. -/
theorem removeLoop_step (cap w : Nat) (hw : cap = 2 ^ w) (fuel : Nat)
    (A : Array Entry) (p q : Nat) (hp : p < cap) (hq : q < cap)
    (hne : p ≠ (q + 1) % cap)
    (hlive : (ent A ((q + 1) % cap)).key ≠ 0) :
    removeLoop cap (fuel + 1) A p q =
      if 0 < dist cap p ((ent A ((q + 1) % cap)).hash % cap) ∧
          dist cap p ((ent A ((q + 1) % cap)).hash % cap) ≤ dist cap p ((q + 1) % cap)
      then removeLoop cap fuel A p ((q + 1) % cap)
      else removeLoop cap fuel (A.setD p (ent A ((q + 1) % cap)))
        ((q + 1) % cap) ((q + 1) % cap) := by
  have hc : 0 < cap := hw ▸ Nat.pos_pow_of_pos w (by omega)
  have hq1 : (q + 1) % cap < cap := Nat.mod_lt _ hc
  have hrm : Nat.land (ent A ((q + 1) % cap)).hash (cap - 1) =
      (ent A ((q + 1) % cap)).hash % cap := by
    rw [hw, land_two_pow_sub_one]
  have hrc : (ent A ((q + 1) % cap)).hash % cap < cap := Nat.mod_lt _ hc
  have hchar := moveCond_iff cap p ((q + 1) % cap)
    ((ent A ((q + 1) % cap)).hash % cap) hc hp hq1 hrc hne
  rw [removeLoop]
  rw [if_neg (fun hcon => hlive hcon)]
  by_cases hd : 0 < dist cap p ((ent A ((q + 1) % cap)).hash % cap) ∧
      dist cap p ((ent A ((q + 1) % cap)).hash % cap) ≤ dist cap p ((q + 1) % cap)
  · rw [if_pos hd, if_neg (by rw [hrm]; rw [Bool.not_eq_true] at *
      <;> rw [Bool.eq_false_iff]; exact fun hmv => (hchar.mp hmv) hd)]
  · rw [if_neg hd, if_pos (by rw [hrm]; exact hchar.mpr hd)]

/-! ## Clear -/

theorem clear_ent (m : HashMapImpl) (i : Nat) :
    ent (Clear m).map_ i = { ent m.map_ i with key := 0 } := by
  show ent (m.map_.map (fun e => { e with key := 0 })) i = _
  unfold ent Array.getD
  simp only [Array.size_map]
  split
  · simp [Array.get_eq_getElem, Array.getElem_map]
  · rfl

theorem clear_countLive (m : HashMapImpl) : countLive (Clear m) = 0 := by
  unfold countLive
  rw [List.length_eq_zero]
  apply List.filter_eq_nil.mpr
  intro i _
  simp [clear_ent]

theorem clear_WF (m : HashMapImpl) (hwf : WF m) : WF (Clear m) := by
  obtain ⟨w, hw⟩ := hwf.pow2
  have hc : 0 < m.capacity_ := hw ▸ Nat.pos_pow_of_pos w (by omega)
  refine ⟨?_, hwf.pow2, ?_, hc, ?_, ?_, ?_⟩
  · show (m.map_.map _).size = m.capacity_
    rw [Array.size_map, hwf.size_eq]
  · rw [clear_countLive]
    rfl
  · show 5 * 0 ≤ 4 * m.capacity_
    omega
  · intro i hi hlive
    rw [clear_ent] at hlive
    exact absurd rfl hlive
  · intro i j hi hj hli
    rw [clear_ent] at hli
    exact absurd rfl hli

theorem clear_not_contains (m : HashMapImpl) (k h : Nat) :
    ¬ Contains (Clear m) k h := by
  rintro ⟨i, hi, hk, hl, hh⟩
  rw [clear_ent] at hl
  exact hl rfl

/-! ## Iteration -/

/-- The first live slot at or after `j`, as a mathematical definition. -/
def firstLive (m : HashMapImpl) (j : Nat) : Option Nat :=
  ((List.range' j (m.capacity_ - j)).filter
    (fun i => decide ((ent m.map_ i).key ≠ 0))).head?

theorem nextLoop_spec (m : HashMapImpl) :
    ∀ fuel j, m.capacity_ - j ≤ fuel → nextLoop m fuel j = firstLive m j := by
  intro fuel
  induction fuel with
  | zero =>
    intro j hj
    have hcj : m.capacity_ ≤ j := by omega
    unfold nextLoop firstLive
    rw [show m.capacity_ - j = 0 from by omega]
    rfl
  | succ f ih =>
    intro j hj
    unfold nextLoop
    by_cases hjc : j < m.capacity_
    · rw [if_pos hjc]
      have hsplit : m.capacity_ - j = (m.capacity_ - (j + 1)) + 1 := by omega
      by_cases hl : (ent m.map_ j).key ≠ 0
      · rw [if_pos hl]
        unfold firstLive
        rw [hsplit, List.range'_succ, List.filter_cons, if_pos (by simpa using hl)]
        rfl
      · rw [if_neg hl]
        rw [ih (j + 1) (by omega)]
        unfold firstLive
        rw [hsplit, List.range'_succ, List.filter_cons, if_neg (by simpa using hl)]
    · rw [if_neg hjc]
      unfold firstLive
      rw [show m.capacity_ - j = 0 from by omega]
      rfl

theorem start_eq (m : HashMapImpl) : Start m = firstLive m 0 :=
  nextLoop_spec m m.capacity_ 0 (by omega)

theorem next_eq (m : HashMapImpl) (p : Nat) : Next m p = firstLive m (p + 1) :=
  nextLoop_spec m m.capacity_ (p + 1) (by omega)

theorem iterFuel_spec (m : HashMapImpl) :
    ∀ n j fuel, m.capacity_ - j = n → n ≤ fuel →
    iterFuel m fuel (firstLive m j) =
      (List.range' j n).filter (fun i => decide ((ent m.map_ i).key ≠ 0)) := by
  intro n
  induction n with
  | zero =>
    intro j fuel hj _
    have hfl : firstLive m j = none := by
      unfold firstLive
      rw [hj]
      rfl
    rw [hfl]
    cases fuel <;> rfl
  | succ n1 ih =>
    intro j fuel hj hfuel
    obtain ⟨f, rfl⟩ := Nat.exists_eq_succ_of_ne_zero (by omega : fuel ≠ 0)
    have hjc : j < m.capacity_ := by omega
    by_cases hl : (ent m.map_ j).key ≠ 0
    · have hfl : firstLive m j = some j := by
        unfold firstLive
        rw [hj, List.range'_succ, List.filter_cons, if_pos (by simpa using hl)]
        rfl
      rw [hfl]
      show j :: iterFuel m f (Next m j) = _
      rw [next_eq m j, ih (j + 1) f (by omega) (by omega),
        List.range'_succ, List.filter_cons, if_pos (by simpa using hl)]
    · have hfl : firstLive m j = firstLive m (j + 1) := by
        unfold firstLive
        rw [hj, List.range'_succ, List.filter_cons, if_neg (by simpa using hl),
          show m.capacity_ - (j + 1) = n1 from by omega]
      rw [hfl, ih (j + 1) (f + 1) (by omega) (by omega),
        List.range'_succ, List.filter_cons, if_neg (by simpa using hl)]

/-- The complete iteration visits exactly the live slots, in increasing
slot order. -/
theorem iteration_eq (m : HashMapImpl) :
    iteration m = (List.range m.capacity_).filter
      (fun i => decide ((ent m.map_ i).key ≠ 0)) := by
  unfold iteration
  rw [start_eq, iterFuel_spec m m.capacity_ 0 m.capacity_ (by omega) (by omega),
    List.range_eq_range']

/-! ## The back-shift removal loop

The loop invariant follows the comment block of `HashMapImpl::Remove`
(lines 146-159): `p` is the candidate slot to clear, `q` the scan slot,
`p0` the slot of the removed entry in the original array `A0`, and `dE`
the cyclic distance from `p0` to the first empty slot of `A0` after it. -/

theorem eq_of_dist_eq (cap r a b : Nat) (hc : 0 < cap) (hr : r < cap) (ha : a < cap)
    (hb : b < cap) (h : dist cap r a = dist cap r b) : a = b := by
  have h1 := add_dist cap r a hr ha
  have h2 := add_dist cap r b hr hb
  rw [← h1, ← h2, h]

/-- If `x` is on the forward path from `r` to `q` and `r` lies strictly
after `p` (up to `q`), then `x` also lies strictly after `p` (up to `q`). -/
theorem sub_interval (cap p q r x : Nat) (hc : 0 < cap) (hp : p < cap) (hq : q < cap)
    (hr : r < cap) (hx : x < cap)
    (hrq : 0 < dist cap p r ∧ dist cap p r ≤ dist cap p q)
    (hxq : dist cap r x ≤ dist cap r q) :
    0 < dist cap p x ∧ dist cap p x ≤ dist cap p q := by
  have hadd : dist cap p r + dist cap r q = dist cap p q :=
    (inPath_iff_add cap p q r hc hp hq hr).mp hrq.2
  have htri := dist_triangle cap p r x hc hp hr hx
  have h1 := dist_lt cap p q hc
  have h2 := dist_lt cap r x hc
  have h3 := dist_lt cap p r hc
  rw [mod_cases cap _ (by omega) hc] at htri
  split_ifs at htri <;> omega

/-- When the moved-entry test holds (the ideal slot `r` is outside the
half-open interval `(p, q]`), the candidate `p` lies on the forward path
from `r` to `q`. -/
theorem mem_path_of_outside (cap p q r : Nat) (hc : 0 < cap) (hp : p < cap)
    (hq : q < cap) (hr : r < cap) (hpq : p ≠ q)
    (hout : ¬ (0 < dist cap p r ∧ dist cap p r ≤ dist cap p q)) :
    inPath cap r q p := by
  unfold inPath
  by_cases hrp : r = p
  · rw [hrp, dist_self]
    omega
  · have hrd : 0 < dist cap p r := by
      rcases Nat.eq_zero_or_pos (dist cap p r) with h0 | h0
      · exact absurd (eq_of_dist_eq cap p r p hc hp hr hp
          (by rw [h0, dist_self])) hrp
      · exact h0
    have hgt : dist cap p q < dist cap p r := by
      rcases Nat.lt_or_ge (dist cap p q) (dist cap p r) with h | h
      · exact h
      · exact absurd ⟨hrd, h⟩ hout
    have hsum : dist cap p r + dist cap r p = cap :=
      dist_add_dist cap p r hc hp hr (fun hh => hrp hh.symm)
    have htri := dist_triangle cap r p q hc hr hp hq
    have h1 := dist_lt cap r p hc
    have h2 := dist_lt cap p q hc
    rw [mod_cases cap _ (by omega) hc] at htri
    split_ifs at htri <;> omega

/-- If `x` lies strictly inside the scanned region (distance from `p0`
below `dE`) and the target `t` lies before `x` or beyond `dE`, then the
first empty slot `E = (p0 + dE) % cap` lies on the path from `x` to `t`. -/
theorem cross_E (cap p0 dE x t : Nat) (hc : 0 < cap) (hp0 : p0 < cap)
    (hdE : dE < cap) (hx : x < cap) (ht : t < cap)
    (hdx : dist cap p0 x < dE)
    (hcond : dist cap p0 t < dist cap p0 x ∨ dE ≤ dist cap p0 t) :
    inPath cap x t ((p0 + dE) % cap) := by
  have hEc : (p0 + dE) % cap < cap := Nat.mod_lt _ hc
  have hdEeq : dist cap p0 ((p0 + dE) % cap) = dE := dist_of_add cap p0 dE hp0 hdE
  unfold inPath
  rw [dist_base_change cap p0 x ((p0 + dE) % cap) hc hp0 hx hEc,
    dist_base_change cap p0 x t hc hp0 hx ht, hdEeq]
  have h1 := dist_lt cap p0 x hc
  have h2 := dist_lt cap p0 t hc
  rw [dist_eq cap (dist cap p0 x) dE h1 hdE,
    dist_eq cap (dist cap p0 x) (dist cap p0 t) h1 h2]
  split_ifs <;> omega

/-- On path coordinates: a point of the half-open interval `(p, s]` has a
`p0`-distance strictly above that of `p` and at most that of `s`, provided
`p` does not lie beyond `s` (relative to `p0`). -/
theorem deltaOf_interval (cap p0 p s x : Nat) (hc : 0 < cap) (hp0 : p0 < cap)
    (hp : p < cap) (hs : s < cap) (hx : x < cap)
    (hps : dist cap p0 p ≤ dist cap p0 s)
    (hin : 0 < dist cap p x ∧ dist cap p x ≤ dist cap p s) :
    dist cap p0 p < dist cap p0 x ∧ dist cap p0 x ≤ dist cap p0 s := by
  have h1 := dist_lt cap p0 p hc
  have h2 := dist_lt cap p0 s hc
  have h3 := dist_lt cap p0 x hc
  rw [dist_base_change cap p0 p x hc hp0 hp hx,
    dist_base_change cap p0 p s hc hp0 hp hs] at hin
  rw [dist_eq cap (dist cap p0 p) (dist cap p0 x) h1 h3,
    dist_eq cap (dist cap p0 p) (dist cap p0 s) h1 h2] at hin
  split_ifs at hin <;> omega

/-- The invariant of the back-shift loop, at the state where the array is
`A`, the clearing candidate is `p`, and the last scanned slot is `q`. -/
structure RInv (cap : Nat) (A0 : Array Entry) (p0 dE : Nat)
    (A : Array Entry) (p q : Nat) : Prop where
  hsz : A.size = cap
  hp : p < cap
  hq : q < cap
  dpq : dist cap p0 p ≤ dist cap p0 q
  dq : dist cap p0 q < dE
  empEq : ∀ x, x < cap → ((ent A x).key = 0 ↔ (ent A0 x).key = 0)
  reach : ∀ s, s < cap → (ent A s).key ≠ 0 → ∀ x, x < cap →
      inPath cap ((ent A s).hash % cap) s x → (ent A x).key ≠ 0
  settled : ∀ s, s < cap → (ent A s).key ≠ 0 → s ≠ p →
      ¬ (dist cap p0 q < dist cap p0 s ∧ dist cap p0 s < dE) →
      ∀ x, x < cap → inPath cap ((ent A s).hash % cap) s x →
      x ≠ p ∧ ¬ (dist cap p0 q < dist cap p0 x ∧ dist cap p0 x < dE)
  ents : ∀ e, (∃ s, s < cap ∧ s ≠ p ∧ (ent A s).key ≠ 0 ∧ ent A s = e) ↔
              (∃ s, s < cap ∧ s ≠ p0 ∧ (ent A0 s).key ≠ 0 ∧ ent A0 s = e)
  dis : ∀ s1 s2, s1 < cap → s2 < cap → s1 ≠ p → s2 ≠ p →
      (ent A s1).key ≠ 0 → (ent A s2).key ≠ 0 →
      (ent A s1).key = (ent A s2).key → (ent A s1).hash = (ent A s2).hash →
      s1 = s2
  pLive : (ent A p).key ≠ 0

/-- What holds of the state `(A2, p2)` returned by the back-shift loop:
`p2` may be cleared safely. -/
structure RFinal (cap : Nat) (A0 : Array Entry) (p0 : Nat)
    (A2 : Array Entry) (p2 : Nat) : Prop where
  hsz : A2.size = cap
  hp : p2 < cap
  pLive : (ent A2 p2).key ≠ 0
  empEq : ∀ x, x < cap → ((ent A2 x).key = 0 ↔ (ent A0 x).key = 0)
  reach : ∀ s, s < cap → (ent A2 s).key ≠ 0 → ∀ x, x < cap →
      inPath cap ((ent A2 s).hash % cap) s x → (ent A2 x).key ≠ 0
  avoid : ∀ s, s < cap → (ent A2 s).key ≠ 0 → s ≠ p2 →
      ∀ x, x < cap → inPath cap ((ent A2 s).hash % cap) s x → x ≠ p2
  ents : ∀ e, (∃ s, s < cap ∧ s ≠ p2 ∧ (ent A2 s).key ≠ 0 ∧ ent A2 s = e) ↔
              (∃ s, s < cap ∧ s ≠ p0 ∧ (ent A0 s).key ≠ 0 ∧ ent A0 s = e)
  dis : ∀ s1 s2, s1 < cap → s2 < cap → s1 ≠ p2 → s2 ≠ p2 →
      (ent A2 s1).key ≠ 0 → (ent A2 s2).key ≠ 0 →
      (ent A2 s1).key = (ent A2 s2).key → (ent A2 s1).hash = (ent A2 s2).hash →
      s1 = s2

/-- The back-shift loop of `Remove` terminates within the fuel and
establishes that its final candidate slot can be cleared safely. -/
theorem removeLoop_inv (cap : Nat) (A0 : Array Entry) (p0 dE w : Nat)
    (hw : cap = 2 ^ w) (hp0 : p0 < cap) (hdEcap : dE < cap)
    (hE : (ent A0 ((p0 + dE) % cap)).key = 0)
    (hMinE : ∀ d, d < dE → (ent A0 ((p0 + d) % cap)).key ≠ 0) :
    ∀ k A p q, RInv cap A0 p0 dE A p q → dE - dist cap p0 q ≤ k →
    ∀ fuel, k ≤ fuel →
    ∃ A2 p2, removeLoop cap fuel A p q = some (A2, p2) ∧
      RFinal cap A0 p0 A2 p2 := by
  have hc : 0 < cap := hw ▸ Nat.pos_pow_of_pos w (by omega)
  have hEc : (p0 + dE) % cap < cap := Nat.mod_lt _ hc
  have hδE : dist cap p0 ((p0 + dE) % cap) = dE := dist_of_add cap p0 dE hp0 hdEcap
  intro k
  induction k with
  | zero =>
    intro A p q hinv hk fuel hfuel
    exact absurd hk (by have := hinv.dq; omega)
  | succ k1 ih =>
    intro A p q hinv hk fuel hfuel
    obtain ⟨f, rfl⟩ := Nat.exists_eq_succ_of_ne_zero (by omega : fuel ≠ 0)
    have hq1c : (q + 1) % cap < cap := Nat.mod_lt _ hc
    have hδq1 : dist cap p0 ((q + 1) % cap) = dist cap p0 q + 1 := by
      rw [dist_add_one cap p0 q hc hp0 hinv.hq]
      exact Nat.mod_eq_of_lt (by have := hinv.dq; omega)
    by_cases hq1e : (ent A ((q + 1) % cap)).key = 0
    · -- the scan hit the empty slot: clearing `p` is safe
      have hres : removeLoop cap (f + 1) A p q = some (A, p) := by
        rw [removeLoop, if_pos hq1e]
      have hδq : dist cap p0 q = dE - 1 := by
        have hA0 : (ent A0 ((q + 1) % cap)).key = 0 :=
          (hinv.empEq _ hq1c).mp hq1e
        by_contra hne
        have hlt : dist cap p0 ((q + 1) % cap) < dE := by
          have := hinv.dq
          omega
        have := hMinE (dist cap p0 ((q + 1) % cap)) hlt
        rw [add_dist cap p0 ((q + 1) % cap) hp0 hq1c] at this
        exact this hA0
      have hdE1 : 1 ≤ dE := by
        have := hinv.dq
        omega
      refine ⟨A, p, hres,
        ⟨hinv.hsz, hinv.hp, hinv.pLive, hinv.empEq, hinv.reach, ?_, hinv.ents, hinv.dis⟩⟩
      intro s hs hlive hsp x hx hpath
      exact (hinv.settled s hs hlive hsp (by omega) x hx hpath).1
    · -- the scan slot holds a live entry
      have hlt : dist cap p0 ((q + 1) % cap) < dE := by
        by_contra hge
        have heq : (q + 1) % cap = (p0 + dE) % cap := by
          have h2 : dist cap p0 ((q + 1) % cap) = dE := by
            have := hinv.dq
            omega
          rw [← add_dist cap p0 ((q + 1) % cap) hp0 hq1c, h2]
        rw [heq] at hq1e
        exact hq1e ((hinv.empEq _ hEc).mpr hE)
      have hpq1 : p ≠ (q + 1) % cap := by
        intro hh
        have hdpq := hinv.dpq
        rw [hh] at hdpq
        omega
      have hrc : (ent A ((q + 1) % cap)).hash % cap < cap := Nat.mod_lt _ hc
      have hstep := removeLoop_step cap w hw f A p q hinv.hp hinv.hq hpq1 hq1e
      by_cases hd : 0 < dist cap p ((ent A ((q + 1) % cap)).hash % cap) ∧
          dist cap p ((ent A ((q + 1) % cap)).hash % cap) ≤ dist cap p ((q + 1) % cap)
      · -- the entry at the scan slot stays in place
        rw [hstep, if_pos hd]
        have hinv2 : RInv cap A0 p0 dE A p ((q + 1) % cap) := by
          refine ⟨hinv.hsz, hinv.hp, hq1c, by have := hinv.dpq; omega, hlt,
            hinv.empEq, hinv.reach, ?_, hinv.ents, hinv.dis, hinv.pLive⟩
          intro s hs hlive hsp hzone x hx hpath
          by_cases hsq1 : s = (q + 1) % cap
          · rw [hsq1] at hpath
            have hin := sub_interval cap p ((q + 1) % cap)
              ((ent A ((q + 1) % cap)).hash % cap) x hc hinv.hp hq1c hrc hx hd hpath
            constructor
            · intro hxp
              rw [hxp, dist_self] at hin
              omega
            · have hδ := deltaOf_interval cap p0 p ((q + 1) % cap) x hc hp0 hinv.hp
                hq1c hx (by have := hinv.dpq; omega) hin
              omega
          · have hsne : dist cap p0 s ≠ dist cap p0 ((q + 1) % cap) :=
              fun hh => hsq1 (eq_of_dist_eq cap p0 s ((q + 1) % cap) hc hp0 hs hq1c hh)
            have hold := hinv.settled s hs hlive hsp (by omega) x hx hpath
            exact ⟨hold.1, by have := hold.2; omega⟩
        exact ih A p ((q + 1) % cap) hinv2 (by omega) f (by omega)
      · -- the entry at the scan slot is moved into the candidate slot
        rw [hstep, if_neg hd]
        have hpsz : p < A.size := by
          rw [hinv.hsz]
          exact hinv.hp
        have helive : (ent A ((q + 1) % cap)).key ≠ 0 := hq1e
        have hA1p : ent (A.setD p (ent A ((q + 1) % cap))) p = ent A ((q + 1) % cap) :=
          ent_setD_eq A p _ hpsz
        have hA1x : ∀ x, x ≠ p →
            ent (A.setD p (ent A ((q + 1) % cap))) x = ent A x :=
          fun x hx => ent_setD_ne A p x _ (fun hh => hx hh.symm)
        have hpmem : inPath cap ((ent A ((q + 1) % cap)).hash % cap) ((q + 1) % cap) p :=
          mem_path_of_outside cap p ((q + 1) % cap) _ hc hinv.hp hq1c hrc hpq1 hd
        have hqpath : ∀ x, x < cap →
            inPath cap ((ent A ((q + 1) % cap)).hash % cap) ((q + 1) % cap) x →
            (ent A x).key ≠ 0 :=
          fun x hx hpa => hinv.reach ((q + 1) % cap) hq1c helive x hx hpa
        have hEnotin : ¬ inPath cap ((ent A ((q + 1) % cap)).hash % cap)
            ((q + 1) % cap) ((p0 + dE) % cap) :=
          fun hin => (hqpath _ hEc hin) ((hinv.empEq _ hEc).mpr hE)
        have hA0p : (ent A0 p).key ≠ 0 := by
          have := hMinE (dist cap p0 p) (by have := hinv.dpq; have := hinv.dq; omega)
          rwa [add_dist cap p0 p hp0 hinv.hp] at this
        have hinv2 : RInv cap A0 p0 dE (A.setD p (ent A ((q + 1) % cap)))
            ((q + 1) % cap) ((q + 1) % cap) := by
          refine ⟨?_, hq1c, hq1c, le_refl _, hlt, ?_, ?_, ?_, ?_, ?_, ?_⟩
          · rw [size_setD]
            exact hinv.hsz
          · -- empEq
            intro x hx
            by_cases hxp : x = p
            · subst hxp
              rw [hA1p]
              constructor
              · intro hh
                exact absurd hh helive
              · intro hh
                exact absurd hh hA0p
            · rw [hA1x x hxp]
              exact hinv.empEq x hx
          · -- reach
            intro s hs hlive1 x hx hpath1
            by_cases hxp : x = p
            · rw [hxp, hA1p]
              exact helive
            · rw [hA1x x hxp]
              by_cases hsp : s = p
              · subst hsp
                rw [hA1p] at hpath1
                have hx1 : inPath cap ((ent A ((q + 1) % cap)).hash % cap)
                    ((q + 1) % cap) x := by
                  unfold inPath at hpath1 ⊢
                  have := hpmem
                  unfold inPath at this
                  omega
                exact hqpath x hx hx1
              · rw [hA1x s hsp] at hpath1 hlive1
                exact hinv.reach s hs hlive1 x hx hpath1
          · -- settled
            intro s hs hlive1 hsq1 hzone x hx hpath1
            by_cases hsp : s = p
            · rw [hsp] at hpath1
              rw [hA1p] at hpath1
              constructor
              · intro hxq1
                rw [hxq1] at hpath1
                apply hpq1
                apply eq_of_dist_eq cap ((ent A ((q + 1) % cap)).hash % cap) p
                  ((q + 1) % cap) hc hrc hinv.hp hq1c
                have h1 := hpath1
                have h2 := hpmem
                unfold inPath at h1 h2
                omega
              · rintro ⟨hz1, hz2⟩
                have hxe : inPath cap x p ((p0 + dE) % cap) := by
                  apply cross_E cap p0 dE x p hc hp0 hdEcap hx hinv.hp hz2
                  left
                  have := hinv.dpq
                  have := hinv.dq
                  omega
                have hEin : inPath cap ((ent A ((q + 1) % cap)).hash % cap) p
                    ((p0 + dE) % cap) :=
                  path_sub cap ((ent A ((q + 1) % cap)).hash % cap) p x
                    ((p0 + dE) % cap) hc hrc hinv.hp hx hEc hpath1 hxe
                apply hEnotin
                unfold inPath at hEin hpmem ⊢
                omega
            · rw [hA1x s hsp] at hpath1 hlive1
              have hsdne : dist cap p0 s ≠ dist cap p0 ((q + 1) % cap) :=
                fun hh => hsq1 (eq_of_dist_eq cap p0 s ((q + 1) % cap) hc hp0 hs hq1c hh)
              have hold := hinv.settled s hs hlive1 hsp (by omega) x hx hpath1
              constructor
              · intro hxq1
                subst hxq1
                have := hold.2
                omega
              · have := hold.2
                omega
          · -- ents
            intro e
            rw [← hinv.ents e]
            constructor
            · rintro ⟨s, hs, hsq1, hlive1, hei⟩
              by_cases hsp : s = p
              · rw [hsp, hA1p] at hei hlive1
                exact ⟨(q + 1) % cap, hq1c, Ne.symm hpq1, hlive1, hei⟩
              · rw [hA1x s hsp] at hei hlive1
                exact ⟨s, hs, hsp, hlive1, hei⟩
            · rintro ⟨s, hs, hsp, hlive1, hei⟩
              by_cases hsq1 : s = (q + 1) % cap
              · subst hsq1
                refine ⟨p, hinv.hp, hpq1, ?_, ?_⟩
                · rw [hA1p]
                  exact hlive1
                · rw [hA1p]
                  exact hei
              · refine ⟨s, hs, hsq1, ?_, ?_⟩
                · rw [hA1x s hsp]
                  exact hlive1
                · rw [hA1x s hsp]
                  exact hei
          · -- dis
            intro s1 s2 hs1 hs2 hsq1 hsq2 hl1 hl2 hke hhe
            by_cases hs1p : s1 = p <;> by_cases hs2p : s2 = p
            · rw [hs1p, hs2p]
            · rw [hs1p, hA1p] at hl1 hke hhe
              rw [hA1x s2 hs2p] at hl2 hke hhe
              exact absurd (hinv.dis ((q + 1) % cap) s2 hq1c hs2 hpq1.symm hs2p
                hl1 hl2 hke hhe).symm hsq2
            · rw [hs2p, hA1p] at hl2 hke hhe
              rw [hA1x s1 hs1p] at hl1 hke hhe
              exact absurd (hinv.dis s1 ((q + 1) % cap) hs1 hq1c hs1p hpq1.symm
                hl1 hl2 hke hhe) hsq1
            · rw [hA1x s1 hs1p] at hl1 hke hhe
              rw [hA1x s2 hs2p] at hl2 hke hhe
              exact hinv.dis s1 s2 hs1 hs2 hs1p hs2p hl1 hl2 hke hhe
          · -- pLive
            rw [hA1x ((q + 1) % cap) (fun hh => hpq1 hh.symm)]
            exact helive
        exact ih (A.setD p (ent A ((q + 1) % cap))) ((q + 1) % cap) ((q + 1) % cap)
          hinv2 (by omega) f (by omega)

/-- `Remove` on an absent pair returns NULL and leaves the table
untouched. -/
theorem remove_absent (m : HashMapImpl) (k h : Nat) (hwf : WF m)
    (hnc : ¬ Contains m k h) :
    Remove PointersMatch m k h = some (m, 0) := by
  obtain ⟨p, hprobe, hpc, hemp, _⟩ := probe_not_contains m k h hwf hnc
  unfold Remove
  rw [hprobe]
  dsimp only
  rw [if_pos hemp]

/-- Full correctness of `Remove` on a present pair: it returns the stored
value, decrements the occupancy, keeps the table well formed, removes
exactly the one entry, and leaves the pair absent. -/
theorem remove_spec (m : HashMapImpl) (k h t : Nat) (hwf : WF m)
    (ht : t < m.capacity_) (hkey : (ent m.map_ t).key = k)
    (hlive : (ent m.map_ t).key ≠ 0) (hhash : (ent m.map_ t).hash = h) :
    ∃ m2, Remove PointersMatch m k h = some (m2, (ent m.map_ t).value) ∧
      WF m2 ∧ m2.capacity_ = m.capacity_ ∧
      m2.occupancy_ = m.occupancy_ - 1 ∧
      (∀ e, MemLive m2 e ↔ MemLive m e ∧ e ≠ ent m.map_ t) ∧
      ¬ Contains m2 k h := by
  obtain ⟨w, hw⟩ := hwf.pow2
  have hc : 0 < m.capacity_ := hw ▸ Nat.pos_pow_of_pos w (by omega)
  set cap := m.capacity_ with hcap
  have hprobe := probe_finds m k h t hwf ht hkey hlive hhash
  obtain ⟨j, hj, hjE⟩ := exists_empty m (hwf.occ_eq ▸ hwf.occ_lt)
  have hPex : ∃ d, d < cap ∧ (ent m.map_ ((t + d) % cap)).key = 0 := by
    refine ⟨dist cap t j, dist_lt cap t j hc, ?_⟩
    rw [add_dist cap t j ht hj]
    exact hjE
  set dE := Nat.find hPex with hdEdef
  have hdEcap : dE < cap := (Nat.find_spec hPex).1
  have hEe : (ent m.map_ ((t + dE) % cap)).key = 0 := (Nat.find_spec hPex).2
  have hMinE : ∀ d, d < dE → (ent m.map_ ((t + d) % cap)).key ≠ 0 := by
    intro d hd h0
    exact Nat.find_min hPex hd ⟨by omega, h0⟩
  have hdE1 : 1 ≤ dE := by
    rcases Nat.eq_zero_or_pos dE with h0 | h0
    · rw [h0, Nat.add_zero, Nat.mod_eq_of_lt ht] at hEe
      exact absurd hEe hlive
    · exact h0
  have h00 : dist cap t t = 0 := dist_self cap t
  have hinv0 : RInv cap m.map_ t dE m.map_ t t := by
    refine ⟨hwf.size_eq, ht, ht, le_refl _, by omega, fun x hx => Iff.rfl,
      fun s hs hl x hx hpa => hwf.reach s hs hl x hx hpa, ?_,
      fun e => Iff.rfl,
      fun s1 s2 hs1 hs2 _ _ hl1 hl2 hke hhe => hwf.dis s1 s2 hs1 hs2 hl1 hl2 hke hhe,
      hlive⟩
    intro s hs hlive1 hsp hzone x hx hpath
    have hδs : dE ≤ dist cap t s := by
      rcases Nat.eq_zero_or_pos (dist cap t s) with h0 | h0
      · exact absurd (eq_of_dist_eq cap t s t hc ht hs ht
          (by rw [h0, h00])) hsp
      · by_contra hge
        push_neg at hge
        exact hzone ⟨by omega, by omega⟩
    have hδx : dE ≤ dist cap t x := by
      by_contra hδx
      push_neg at hδx
      have hxe : inPath cap x s ((t + dE) % cap) :=
        cross_E cap t dE x s hc ht hdEcap hx hs hδx (Or.inr hδs)
      have hEin : inPath cap ((ent m.map_ s).hash % cap) s ((t + dE) % cap) :=
        path_sub cap ((ent m.map_ s).hash % cap) s x ((t + dE) % cap) hc
          (Nat.mod_lt _ hc) hs hx (Nat.mod_lt _ hc) hpath hxe
      exact (hwf.reach s hs hlive1 ((t + dE) % cap) (Nat.mod_lt _ hc) hEin) hEe
    constructor
    · intro hxt
      rw [hxt, h00] at hδx
      omega
    · intro hzx
      omega
  obtain ⟨A2, p2, hrun, hfin⟩ :=
    removeLoop_inv cap m.map_ t dE w hw ht hdEcap hEe hMinE dE m.map_ t t hinv0
      (by omega) cap (by omega)
  have hp2sz : p2 < A2.size := by
    rw [hfin.hsz]
    exact hfin.hp
  have hBp2 : ent (A2.setD p2 { ent A2 p2 with key := 0 }) p2 =
      { ent A2 p2 with key := 0 } := ent_setD_eq A2 p2 _ hp2sz
  have hBx : ∀ x, x ≠ p2 →
      ent (A2.setD p2 { ent A2 p2 with key := 0 }) x = ent A2 x :=
    fun x hx => ent_setD_ne A2 p2 x _ (fun hh => hx hh.symm)
  have hA0p2 : (ent m.map_ p2).key ≠ 0 := by
    intro h0
    exact hfin.pLive ((hfin.empEq p2 hfin.hp).mpr h0)
  set m2 : HashMapImpl :=
    { m with map_ := A2.setD p2 { ent A2 p2 with key := 0 },
             occupancy_ := m.occupancy_ - 1 } with hm2
  have hcl : countLive m = countLive m2 + 1 := by
    unfold countLive
    rw [← List.countP_eq_length_filter, ← List.countP_eq_length_filter]
    show (List.range cap).countP _ = (List.range cap).countP _ + 1
    refine countP_range_update p2 _ _ ?_ ?_ cap hfin.hp ?_
    · show (decide ((ent (A2.setD p2 { ent A2 p2 with key := 0 }) p2).key ≠ 0)) = false
      rw [hBp2]
      simp
    · simp [hA0p2]
    · intro i hi hip
      show (decide ((ent (A2.setD p2 { ent A2 p2 with key := 0 }) i).key ≠ 0)) =
        (decide ((ent m.map_ i).key ≠ 0))
      rw [hBx i hip]
      have hiff := hfin.empEq i hi
      by_cases h0 : (ent A2 i).key = 0
      · rw [h0, hiff.mp h0]
      · have h1 : (ent m.map_ i).key ≠ 0 := fun hh => h0 (hiff.mpr hh)
        simp [h0, h1]
  have hocc1 : 1 ≤ m.occupancy_ := by
    rw [hwf.occ_eq, hcl]
    omega
  have hwf2 : WF m2 := by
    refine ⟨?_, hwf.pow2, ?_, ?_, ?_, ?_, ?_⟩
    · show (A2.setD p2 _).size = cap
      rw [size_setD]
      exact hfin.hsz
    · show m.occupancy_ - 1 = countLive m2
      rw [hwf.occ_eq, hcl]
      omega
    · show m.occupancy_ - 1 < cap
      have := hwf.occ_lt
      omega
    · show 5 * (m.occupancy_ - 1) ≤ 4 * cap
      have := hwf.load
      omega
    · intro s hs hlive1 x hx hpath
      show (ent (A2.setD p2 _) x).key ≠ 0
      have hsp2 : s ≠ p2 := by
        intro hh
        rw [hh] at hlive1
        show False
        apply hlive1
        show (ent (A2.setD p2 _) p2).key = 0
        rw [hBp2]
      rw [show ent m2.map_ s = ent A2 s from hBx s hsp2] at hlive1
      have hxp2 : x ≠ p2 := by
        apply hfin.avoid s hs hlive1 hsp2 x hx
        show inPath cap ((ent A2 s).hash % cap) s x
        have hideal : idealOf m2 s = (ent A2 s).hash % cap := by
          unfold idealOf
          rw [show ent m2.map_ s = ent A2 s from hBx s hsp2]
        rw [hideal] at hpath
        exact hpath
      rw [hBx x hxp2]
      apply hfin.reach s hs hlive1 x hx
      have hideal : idealOf m2 s = (ent A2 s).hash % cap := by
        unfold idealOf
        rw [show ent m2.map_ s = ent A2 s from hBx s hsp2]
      rw [hideal] at hpath
      exact hpath
    · intro s1 s2 hs1 hs2 hl1 hl2 hke hhe
      have hsp1 : s1 ≠ p2 := by
        intro hh
        rw [hh] at hl1
        exact hl1 (by rw [show ent m2.map_ p2 = _ from hBp2])
      have hsp2 : s2 ≠ p2 := by
        intro hh
        rw [hh] at hl2
        exact hl2 (by rw [show ent m2.map_ p2 = _ from hBp2])
      rw [show ent m2.map_ s1 = ent A2 s1 from hBx s1 hsp1] at hl1 hke hhe
      rw [show ent m2.map_ s2 = ent A2 s2 from hBx s2 hsp2] at hl2 hke hhe
      exact hfin.dis s1 s2 hs1 hs2 hsp1 hsp2 hl1 hl2 hke hhe
  have hmem : ∀ e, MemLive m2 e ↔ MemLive m e ∧ e ≠ ent m.map_ t := by
    intro e
    constructor
    · rintro ⟨i, hi, hli, hei⟩
      have hip2 : i ≠ p2 := by
        intro hh
        rw [hh] at hli
        exact hli (by rw [show ent m2.map_ p2 = _ from hBp2])
      rw [show ent m2.map_ i = ent A2 i from hBx i hip2] at hli hei
      obtain ⟨s, hs, hst, hsl, hse⟩ := (hfin.ents e).mp ⟨i, hi, hip2, hli, hei⟩
      refine ⟨⟨s, hs, hsl, hse⟩, ?_⟩
      intro hee
      apply hst
      apply hwf.dis s t hs ht hsl hlive
      · rw [hse, hee]
      · rw [hse, hee]
    · rintro ⟨⟨s, hs, hsl, hse⟩, hne⟩
      have hst : s ≠ t := by
        intro hh
        rw [hh] at hse
        exact hne hse.symm
      obtain ⟨i, hi, hip2, hil, hie⟩ := (hfin.ents e).mpr ⟨s, hs, hst, hsl, hse⟩
      refine ⟨i, hi, ?_, ?_⟩
      · rw [show ent m2.map_ i = ent A2 i from hBx i hip2]
        exact hil
      · rw [show ent m2.map_ i = ent A2 i from hBx i hip2]
        exact hie
  refine ⟨m2, ?_, hwf2, rfl, rfl, hmem, ?_⟩
  · unfold Remove
    rw [hprobe]
    dsimp only
    rw [if_neg (fun hcon => hlive hcon), hrun]
  · rintro ⟨i, hi, hik, hil, hih⟩
    have hip2 : i ≠ p2 := by
      intro hh
      rw [hh] at hil
      exact hil (by rw [show ent m2.map_ p2 = _ from hBp2])
    rw [show ent m2.map_ i = ent A2 i from hBx i hip2] at hik hil hih
    obtain ⟨s, hs, hst, hsl, hse⟩ :=
      (hfin.ents (ent A2 i)).mp ⟨i, hi, hip2, hil, rfl⟩
    apply hst
    apply hwf.dis s t hs ht hsl hlive
    · rw [hse, hik, hkey]
    · rw [hse, hih, hhash]

/-- A sequence of fresh inserts with pairwise distinct pairs: all succeed,
well-formedness is kept, the occupancy grows by the number of pairs, and
exactly the old and new pairs are present afterwards. -/
theorem insertAll_spec :
    ∀ (l : List (Nat × Nat)) (m : HashMapImpl), WF m →
    List.Pairwise (fun a b => a ≠ b) l →
    (∀ p, p ∈ l → p.1 ≠ 0) →
    (∀ p, p ∈ l → ¬ Contains m p.1 p.2) →
    ∃ m2, insertAll PointersMatch m l = some m2 ∧ WF m2 ∧
      m2.occupancy_ = m.occupancy_ + l.length ∧
      (∀ k h, Contains m2 k h ↔ Contains m k h ∨ (k, h) ∈ l) := by
  intro l
  induction l with
  | nil =>
    intro m hwf _ _ _
    exact ⟨m, rfl, hwf, by simp, fun k h => by simp⟩
  | cons x rest ih =>
    rcases x with ⟨k1, h1⟩
    intro m hwf hpw hk0 hnc
    obtain ⟨m1, i, hrun1, hwf1, _, _, _, hocc1, _, hcont1, _⟩ :=
      lookupOrInsert_new m k1 h1 hwf
        (hk0 (k1, h1) (List.mem_cons_self _ _))
        (hnc (k1, h1) (List.mem_cons_self _ _))
    have hnc2 : ∀ p, p ∈ rest → ¬ Contains m1 p.1 p.2 := by
      intro p hp hcon
      rcases (hcont1 p.1 p.2).mp hcon with hcon1 | ⟨hpk, hph⟩
      · exact hnc p (List.mem_cons_of_mem _ hp) hcon1
      · have : (k1, h1) ≠ p := (List.pairwise_cons.mp hpw).1 p hp
        apply this
        rcases p with ⟨pk, ph⟩
        simp only at hpk hph
        rw [hpk, hph]
    obtain ⟨m2, hrun2, hwf2, hocc2, hcont2⟩ :=
      ih m1 hwf1 (List.pairwise_cons.mp hpw).2
        (fun p hp => hk0 p (List.mem_cons_of_mem _ hp)) hnc2
    refine ⟨m2, ?_, hwf2, by rw [hocc2, hocc1]; simp; omega, ?_⟩
    · show (match LookupOrInsert PointersMatch m k1 h1 with
        | none => none
        | some (m', _) => insertAll PointersMatch m' rest) = some m2
      rw [hrun1]
      exact hrun2
    · intro k h
      rw [hcont2 k h, hcont1 k h]
      constructor
      · rintro ((hx | ⟨hk, hh⟩) | hx)
        · exact Or.inl hx
        · exact Or.inr (by rw [hk, hh]; exact List.mem_cons_self _ _)
        · exact Or.inr (List.mem_cons_of_mem _ hx)
      · rintro (hx | hx)
        · exact Or.inl (Or.inl hx)
        · rcases List.mem_cons.mp hx with hxe | hx2
          · exact Or.inl (Or.inr ⟨congrArg Prod.fst hxe, congrArg Prod.snd hxe⟩)
          · exact Or.inr hx2

/-! ## Concrete tables used by the witnesses and counterexamples -/

/-- Keys 1, 2, 3, all hashing to 0, sitting in slots 0, 1, 2 of a
capacity-8 table: the colliding-chain scenario of the specification. -/
def mABC : HashMapImpl :=
  { map_ := #[⟨1, 0, 0, 0⟩, ⟨2, 0, 0, 1⟩, ⟨3, 0, 0, 2⟩, ⟨0, 0, 0, 0⟩,
      ⟨0, 0, 0, 0⟩, ⟨0, 0, 0, 0⟩, ⟨0, 0, 0, 0⟩, ⟨0, 0, 0, 0⟩],
    capacity_ := 8,
    occupancy_ := 3 }

theorem dis_of_ballLT (m : HashMapImpl)
    (h : ∀ i, i < m.capacity_ → ∀ j, j < m.capacity_ →
      ((ent m.map_ i).key ≠ 0 ∧ (ent m.map_ j).key ≠ 0 ∧
       (ent m.map_ i).key = (ent m.map_ j).key ∧
       (ent m.map_ i).hash = (ent m.map_ j).hash) → i = j) :
    ∀ i j, i < m.capacity_ → j < m.capacity_ →
      (ent m.map_ i).key ≠ 0 → (ent m.map_ j).key ≠ 0 →
      (ent m.map_ i).key = (ent m.map_ j).key →
      (ent m.map_ i).hash = (ent m.map_ j).hash → i = j :=
  fun i j hi hj h1 h2 h3 h4 => h i hi j hj ⟨h1, h2, h3, h4⟩

theorem mABC_wf : WF mABC :=
  ⟨by decide, ⟨3, rfl⟩, by decide, by decide, by decide, by decide,
    dis_of_ballLT mABC (by decide)⟩

/-- Keys 1..6 in slots 1..6 (hash `i` in slot `i`), capacity 8: one more
insert crosses the 80% growth threshold. -/
def mSix : HashMapImpl :=
  { map_ := #[⟨0, 0, 0, 0⟩, ⟨1, 0, 1, 0⟩, ⟨2, 0, 2, 1⟩, ⟨3, 0, 3, 2⟩,
      ⟨4, 0, 4, 3⟩, ⟨5, 0, 5, 4⟩, ⟨6, 0, 6, 5⟩, ⟨0, 0, 0, 0⟩],
    capacity_ := 8,
    occupancy_ := 6 }

theorem mSix_wf : WF mSix :=
  ⟨by decide, ⟨3, rfl⟩, by decide, by decide, by decide, by decide,
    dis_of_ballLT mSix (by decide)⟩

/-- A removal candidate at slot 0 and a live entry at slot 1 whose ideal
slot is 1 (its own slot): the back-shift loop leaves it in place. -/
def cexA : Array Entry :=
  #[⟨5, 0, 0, 0⟩, ⟨7, 0, 1, 1⟩, ⟨0, 0, 0, 0⟩, ⟨0, 0, 0, 0⟩,
    ⟨0, 0, 0, 0⟩, ⟨0, 0, 0, 0⟩, ⟨0, 0, 0, 0⟩, ⟨0, 0, 0, 0⟩]

/-- A removal candidate at slot 0 and a live entry at slot 1 whose ideal
slot is 0: the back-shift loop moves it into slot 0. -/
def cexB : Array Entry :=
  #[⟨5, 0, 0, 0⟩, ⟨7, 0, 0, 1⟩, ⟨0, 0, 0, 0⟩, ⟨0, 0, 0, 0⟩,
    ⟨0, 0, 0, 0⟩, ⟨0, 0, 0, 0⟩, ⟨0, 0, 0, 0⟩, ⟨0, 0, 0, 0⟩]

/-- `mABC` after `LookupOrInsert` of key 5 with hash 5. -/
def mABC5 : HashMapImpl :=
  { map_ := #[⟨1, 0, 0, 0⟩, ⟨2, 0, 0, 1⟩, ⟨3, 0, 0, 2⟩, ⟨0, 0, 0, 0⟩,
      ⟨0, 0, 0, 0⟩, ⟨5, 0, 5, 3⟩, ⟨0, 0, 0, 0⟩, ⟨0, 0, 0, 0⟩],
    capacity_ := 8,
    occupancy_ := 4 }

/-! ## The claims -/

/-- C1.  On a well-formed table, `Remove` of a present key (stored at slot
`t` with its cached hash) succeeds; afterwards the table is again well
formed — in particular invariant 4 (`WF.reach`) holds, i.e. walking the
probe sequence from each live entry's ideal slot reaches its slot before
any empty slot — every other pair present before is still present and is
found by `Lookup` under its original hash, and the removed key itself is
absent. -/
theorem C1_remove_keeps_others_reachable (m : HashMapImpl) (key hash t : Nat)
    (hwf : WF m) (ht : t < m.capacity_) (hkey : (ent m.map_ t).key = key)
    (hlive : (ent m.map_ t).key ≠ 0) (hhash : (ent m.map_ t).hash = hash) :
    ∃ m2 v, Remove PointersMatch m key hash = some (m2, v) ∧ WF m2 ∧
      Lookup PointersMatch m2 key hash = none ∧
      (∀ k2 h2, k2 ≠ key → Contains m k2 h2 →
        Contains m2 k2 h2 ∧
        ∃ e, Lookup PointersMatch m2 k2 h2 = some e ∧ e.key = k2 ∧ e.hash = h2) := by
  obtain ⟨m2, hrun, hwf2, hcap2, hocc2, hmem2, hnc2⟩ :=
    remove_spec m key hash t hwf ht hkey hlive hhash
  refine ⟨m2, (ent m.map_ t).value, hrun,
    hwf2, lookup_not_contains m2 key hash hwf2 hnc2, ?_⟩
  intro k2 h2 hne hcont
  obtain ⟨s, hs, hks, hls, hhs⟩ := hcont
  have hmem : MemLive m2 (ent m.map_ s) := by
    apply (hmem2 (ent m.map_ s)).mpr
    refine ⟨⟨s, hs, hls, rfl⟩, ?_⟩
    intro hee
    apply hne
    rw [← hks, hee, hkey]
  obtain ⟨i, hi, hli, hie⟩ := hmem
  have hcont2 : Contains m2 k2 h2 :=
    ⟨i, hi, by rw [hie, hks], hli, by rw [hie, hhs]⟩
  exact ⟨hcont2, lookup_found m2 k2 h2 hwf2 hcont2⟩

/-- Witness for C1: the concrete colliding scenario — keys 1, 2, 3 all with
hash 0 in a capacity-8 table; key 2 (the middle of the chain) is removed. -/
theorem C1_witness :
    ∃ m2 v, Remove PointersMatch mABC 2 0 = some (m2, v) ∧ WF m2 ∧
      Lookup PointersMatch m2 2 0 = none ∧
      (∀ k2 h2, k2 ≠ 2 → Contains mABC k2 h2 →
        Contains m2 k2 h2 ∧
        ∃ e, Lookup PointersMatch m2 k2 h2 = some e ∧ e.key = k2 ∧ e.hash = h2) :=
  C1_remove_keeps_others_reachable mABC 2 0 1 mABC_wf (by decide) (by decide)
    (by decide) (by decide)

/-- C2 (as amended).  One iteration of the back-shift loop on a live scan
slot `q+1` follows the half-open cyclic-interval rule: the entry stays in
place exactly when its ideal slot lies in the interval `(p, q+1]`
(cyclically, excluding `p` and including `q+1`); otherwise it is moved
into the candidate slot `p`, which becomes the slot `q+1`. -/
theorem C2_backshift_move_rule (cap w : Nat) (hw : cap = 2 ^ w) (fuel : Nat)
    (A : Array Entry) (p q : Nat) (hp : p < cap) (hq : q < cap)
    (hne : p ≠ (q + 1) % cap)
    (hlive : (ent A ((q + 1) % cap)).key ≠ 0) :
    removeLoop cap (fuel + 1) A p q =
      if 0 < dist cap p ((ent A ((q + 1) % cap)).hash % cap) ∧
          dist cap p ((ent A ((q + 1) % cap)).hash % cap) ≤ dist cap p ((q + 1) % cap)
      then removeLoop cap fuel A p ((q + 1) % cap)
      else removeLoop cap fuel (A.setD p (ent A ((q + 1) % cap)))
        ((q + 1) % cap) ((q + 1) % cap) :=
  removeLoop_step cap w hw fuel A p q hp hq hne hlive

/-- Counterexample to C2 as stated.  With candidate `P = 0` and scan slot
`Q = 1`, the entry at `Q` has ideal slot `R = 1 = Q`, which falls outside
the interval *strictly* between `P` and `Q` (that open interval is empty),
so the claim predicts the entry is moved into `P`; the code instead leaves
the array unchanged (the loop returns the original array and candidate),
because its test keeps entries whose ideal slot lies in the *half-open*
interval `(P, Q]`. -/
theorem C2_counterexample :
    (ent cexA 1).hash % 8 = 1 ∧
    ¬ (0 < dist 8 0 ((ent cexA 1).hash % 8) ∧
        dist 8 0 ((ent cexA 1).hash % 8) < dist 8 0 1) ∧
    removeLoop 8 8 cexA 0 0 = some (cexA, 0) := by
  refine ⟨by decide, by decide, by decide⟩

/-- Witness for C2: with the entry at slot 1 hashing to slot 0, the ideal
slot is outside `(0, 1]`, so the step moves it into slot 0. -/
theorem C2_witness :
    removeLoop 8 (7 + 1) cexB 0 0 =
      if 0 < dist 8 0 ((ent cexB ((0 + 1) % 8)).hash % 8) ∧
          dist 8 0 ((ent cexB ((0 + 1) % 8)).hash % 8) ≤ dist 8 0 ((0 + 1) % 8)
      then removeLoop 8 7 cexB 0 ((0 + 1) % 8)
      else removeLoop 8 7 (cexB.setD 0 (ent cexB ((0 + 1) % 8)))
        ((0 + 1) % 8) ((0 + 1) % 8) :=
  C2_backshift_move_rule 8 3 rfl 7 cexB 0 0 (by decide) (by decide) (by decide)
    (by decide)

/-- C3 (as amended).  Starting from a freshly constructed table, after a
sequence of `LookupOrInsert` calls with pairwise distinct (key, hash)
pairs and non-NULL keys, every inserted pair is found by `Lookup` under
its original hash, and the occupancy equals the number of inserted pairs. -/
theorem C3_inserts_all_found (l : List (Nat × Nat))
    (hpw : List.Pairwise (fun a b => a ≠ b) l)
    (hk0 : ∀ p, p ∈ l → p.1 ≠ 0) :
    ∃ m2, insertAll PointersMatch mkHashMap l = some m2 ∧
      (∀ p, p ∈ l → ∃ e, Lookup PointersMatch m2 p.1 p.2 = some e ∧
        e.key = p.1 ∧ e.hash = p.2) ∧
      m2.occupancy_ = l.length := by
  have hwf0 : WF mkHashMap := initTable_WF kDefaultHashMapCapacity ⟨3, rfl⟩
  obtain ⟨m2, hrun, hwf2, hocc2, hcont2⟩ :=
    insertAll_spec l mkHashMap hwf0 hpw hk0
      (fun p _ => initTable_not_contains kDefaultHashMapCapacity p.1 p.2)
  refine ⟨m2, hrun, ?_, by rw [hocc2]; show 0 + l.length = l.length; omega⟩
  intro p hp
  exact lookup_found m2 p.1 p.2 hwf2 ((hcont2 p.1 p.2).mpr (Or.inr hp))

/-- Counterexample to C3 as stated.  The pairs `(1, 0)` and `(1, 1)` are
pairwise distinct (and the key is non-NULL), yet after inserting both the
occupancy is 2 while the number of distinct *keys* inserted is 1: the
claim's "occupancy() equals the number of distinct keys inserted" fails,
because the same key inserted under two different hashes occupies two
slots. -/
theorem C3_counterexample :
    List.Pairwise (fun a b => a ≠ b) [((1 : Nat), (0 : Nat)), (1, 1)] ∧
    (∀ p, p ∈ [((1 : Nat), (0 : Nat)), (1, 1)] → p.1 ≠ 0) ∧
    (insertAll PointersMatch mkHashMap [(1, 0), (1, 1)]).map
      (fun m => m.occupancy_) = some 2 ∧
    (([((1 : Nat), (0 : Nat)), (1, 1)]).map Prod.fst).dedup.length = 1 := by
  refine ⟨by decide, by decide, by decide, by decide⟩

/-- Witness for C3: inserting the two distinct pairs `(1, 1)` and `(2, 5)`
into a fresh table. -/
theorem C3_witness :
    ∃ m2, insertAll PointersMatch mkHashMap [(1, 1), (2, 5)] = some m2 ∧
      (∀ p, p ∈ [((1 : Nat), (1 : Nat)), (2, 5)] →
        ∃ e, Lookup PointersMatch m2 p.1 p.2 = some e ∧
          e.key = p.1 ∧ e.hash = p.2) ∧
      m2.occupancy_ = ([((1 : Nat), (1 : Nat)), (2, 5)]).length :=
  C3_inserts_all_found [(1, 1), (2, 5)] (by decide) (by decide)

/-- C4.  After construction (with a power-of-two capacity), after a
successful `LookupOrInsert`, after a successful `Remove` and after
`Clear`, the table is well formed: in particular the capacity is a power
of two, the occupancy is strictly below the capacity (an empty slot
exists), and the load factor is at most 80% (`5 * occupancy ≤ 4 *
capacity`).  `Lookup` is a pure read in this embedding (it returns no
table), so it trivially preserves the state. -/
theorem C4_invariants_after_ops :
    (∀ cap, (∃ w, cap = 2 ^ w) → WF (initTable cap)) ∧
    (∀ m key hash m1 i, WF m → key ≠ 0 →
      LookupOrInsert PointersMatch m key hash = some (m1, i) → WF m1) ∧
    (∀ m key hash m2 v, WF m →
      Remove PointersMatch m key hash = some (m2, v) → WF m2) ∧
    (∀ m, WF m → WF (Clear m)) := by
  refine ⟨fun cap h => initTable_WF cap h, ?_, ?_, fun m hwf => clear_WF m hwf⟩
  · intro m key hash m1 i hwf hk hrun
    by_cases hcont : Contains m key hash
    · obtain ⟨t, htc, hkt, hlt, hht⟩ := hcont
      rw [lookupOrInsert_found m key hash t hwf htc hkt hlt hht] at hrun
      have h := (Prod.mk.injEq _ _ _ _).mp (Option.some.inj hrun)
      rw [← h.1]
      exact hwf
    · obtain ⟨m1', p, hrun', hwf1, _⟩ := lookupOrInsert_new m key hash hwf hk hcont
      rw [hrun'] at hrun
      have h := (Prod.mk.injEq _ _ _ _).mp (Option.some.inj hrun)
      rw [← h.1]
      exact hwf1
  · intro m key hash m2 v hwf hrun
    by_cases hcont : Contains m key hash
    · obtain ⟨t, htc, hkt, hlt, hht⟩ := hcont
      obtain ⟨m2', hrun', hwf2, _⟩ := remove_spec m key hash t hwf htc hkt hlt hht
      rw [hrun'] at hrun
      have h := (Prod.mk.injEq _ _ _ _).mp (Option.some.inj hrun)
      rw [← h.1]
      exact hwf2
    · rw [remove_absent m key hash hwf hcont] at hrun
      have h := (Prod.mk.injEq _ _ _ _).mp (Option.some.inj hrun)
      rw [← h.1]
      exact hwf

/-- Witness for C4: a fresh capacity-8 table is well formed, and clearing
the concrete three-entry table gives a well-formed table. -/
theorem C4_witness : WF (initTable 8) ∧ WF (Clear mABC) :=
  ⟨C4_invariants_after_ops.1 8 ⟨3, rfl⟩,
    C4_invariants_after_ops.2.2.2 mABC mABC_wf⟩

/-- C5.  When the growth test fires on insertion, the capacity exactly
doubles (still a power of two) and the new table holds exactly the
entries of the table just after placement: every entry live before the
resize is present under its key and cached hash with value and order
intact, plus the newly placed entry, and nothing else. -/
theorem C5_resize_doubles (m : HashMapImpl) (key hash : Nat) (hwf : WF m)
    (hk : key ≠ 0) (hnc : ¬ Contains m key hash)
    (hg : growthCheck (m.occupancy_ + 1) m.capacity_ = true) :
    ∃ m1 i, LookupOrInsert PointersMatch m key hash = some (m1, i) ∧
      m1.capacity_ = m.capacity_ * 2 ∧ (∃ w, m1.capacity_ = 2 ^ w) ∧
      m1.occupancy_ = m.occupancy_ + 1 ∧
      (∀ e, MemLive m1 e ↔ MemLive m e ∨ e = ⟨key, 0, hash, m.occupancy_⟩) := by
  obtain ⟨m1, i, hrun, hwf1, _, _, _, hocc1, hcap1, _, hmem1⟩ :=
    lookupOrInsert_new m key hash hwf hk hnc
  rw [if_pos hg] at hcap1
  exact ⟨m1, i, hrun, hcap1, hwf1.pow2, hocc1, hmem1⟩

/-- Witness for C5: inserting a 7th key into the six-entry capacity-8
table fires the growth test and doubles the capacity to 16. -/
theorem C5_witness :
    ∃ m1 i, LookupOrInsert PointersMatch mSix 7 7 = some (m1, i) ∧
      m1.capacity_ = mSix.capacity_ * 2 ∧ (∃ w, m1.capacity_ = 2 ^ w) ∧
      m1.occupancy_ = mSix.occupancy_ + 1 ∧
      (∀ e, MemLive m1 e ↔ MemLive mSix e ∨ e = ⟨7, 0, 7, mSix.occupancy_⟩) :=
  C5_resize_doubles mSix 7 7 mSix_wf (by decide) (by decide) (by decide)

/-- C6.  With no mutation during the traversal (automatic here: iteration
is a pure function of the table), iterating with `Start` and repeated
`Next` visits exactly the live slots, each once, in strictly increasing
slot order — the visited list is the filter of `0, 1, ..., capacity-1` to
the live slots — and `Start` returns the absent result on an empty
table. -/
theorem C6_iteration_visits_live_slots (m : HashMapImpl) :
    iteration m = (List.range m.capacity_).filter
      (fun i => decide ((ent m.map_ i).key ≠ 0)) ∧
    ((∀ i, i < m.capacity_ → (ent m.map_ i).key = 0) → Start m = none) := by
  refine ⟨iteration_eq m, ?_⟩
  intro hall
  rw [start_eq]
  unfold firstLive
  rw [List.filter_eq_nil.mpr ?_]
  · rfl
  · intro i hi
    have hic : i < m.capacity_ := by
      have := List.mem_range'.mp hi
      omega
    simp [hall i hic]

/-- Witness for C6: the three-entry table is iterated as `[0, 1, 2]`, and
`Start` on a fresh table is absent. -/
theorem C6_witness : iteration mABC = [0, 1, 2] ∧ Start (initTable 8) = none :=
  ⟨by rw [(C6_iteration_visits_live_slots mABC).1]; rfl,
    (C6_iteration_visits_live_slots (initTable 8)).2 (by decide)⟩

/-- C7.  `LookupOrInsert` is idempotent: if a call returns table `m1` and
slot `i`, calling it again with the same key and hash on `m1` returns the
identical slot `i` and the table `m1` itself — occupancy, capacity and
every slot unchanged. -/
theorem C7_lookupOrInsert_idempotent (m : HashMapImpl) (key hash : Nat)
    (hwf : WF m) (hk : key ≠ 0) (m1 : HashMapImpl) (i : Nat)
    (hrun : LookupOrInsert PointersMatch m key hash = some (m1, i)) :
    LookupOrInsert PointersMatch m1 key hash = some (m1, i) := by
  by_cases hcont : Contains m key hash
  · obtain ⟨t, htc, hkt, hlt, hht⟩ := hcont
    rw [lookupOrInsert_found m key hash t hwf htc hkt hlt hht] at hrun
    have h := (Prod.mk.injEq _ _ _ _).mp (Option.some.inj hrun)
    have hm : m1 = m := h.1.symm
    have hi : i = t := h.2.symm
    rw [hm, hi]
    exact lookupOrInsert_found m key hash t hwf htc hkt hlt hht
  · obtain ⟨m1', p, hrun', hwf1, hpc, hpk, hph, _⟩ :=
      lookupOrInsert_new m key hash hwf hk hcont
    rw [hrun'] at hrun
    have h := (Prod.mk.injEq _ _ _ _).mp (Option.some.inj hrun)
    have hm : m1 = m1' := h.1.symm
    have hi : i = p := h.2.symm
    rw [hm, hi]
    exact lookupOrInsert_found m1' key hash p hwf1 hpc hpk
      (by rw [hpk]; exact hk) hph

/-- Witness for C7: inserting key 5 (hash 5) into the three-entry table
places it in slot 5; the repeated call returns the same table and slot. -/
theorem C7_witness : LookupOrInsert PointersMatch mABC5 5 5 = some (mABC5, 5) :=
  C7_lookupOrInsert_idempotent mABC 5 5 mABC_wf (by decide) mABC5 5 (by decide)

/-- C8.  Removing an absent pair returns the NULL sentinel and leaves the
table completely unchanged (the very same state, hence same occupancy,
capacity and slots). -/
theorem C8_remove_absent_noop (m : HashMapImpl) (key hash : Nat) (hwf : WF m)
    (hnc : ¬ Contains m key hash) :
    Remove PointersMatch m key hash = some (m, 0) :=
  remove_absent m key hash hwf hnc

/-- Witness for C8: removing the absent key 9 from the three-entry table. -/
theorem C8_witness : Remove PointersMatch mABC 9 0 = some (mABC, 0) :=
  C8_remove_absent_noop mABC 9 0 mABC_wf (by decide)

/-- C9.  The integer growth test `occupancy + occupancy/4 >= capacity`
(with truncating division) is exact: it holds iff `5·o ≥ 4·c`, i.e. iff
the rational load factor `o / c` is at least `0.8`. -/
theorem C9_growth_test_exact (o c : Nat) (hp : ∃ w, c = 2 ^ w) :
    (growthCheck o c = true ↔ 5 * o ≥ 4 * c) ∧
    (5 * o ≥ 4 * c ↔ (4 : ℚ) / 5 ≤ (o : ℚ) / (c : ℚ)) := by
  obtain ⟨w, hw⟩ := hp
  have hc : 0 < c := hw ▸ Nat.pos_pow_of_pos w (by omega)
  refine ⟨growthCheck_iff o c, ?_⟩
  rw [div_le_div_iff (by norm_num) (by exact_mod_cast hc)]
  constructor
  · intro h
    have h2 : (4 : ℚ) * c ≤ 5 * o := by exact_mod_cast by omega
    linarith
  · intro h
    have h2 : (4 : ℚ) * c ≤ (o : ℚ) * 5 := by linarith
    have h3 : 4 * c ≤ o * 5 := by exact_mod_cast h2
    omega

/-- Witness for C9: at occupancy 4 and capacity 4 the test fires and the
load factor is 1 ≥ 0.8. -/
theorem C9_witness : growthCheck 4 4 = true :=
  ((C9_growth_test_exact 4 4 ⟨2, rfl⟩).1).mpr (by decide)

/-- C10.  `Remove` returns the NULL sentinel (`0`) in two distinguishable
situations: when the pair is absent (no mutation at all), and when the
pair is present but stores the NULL value — in which case the entry is
nevertheless deleted and the occupancy decreases by exactly one, so a
NULL return does not imply the table was left unmutated. -/
theorem C10_null_return_ambiguous :
    (∀ m key hash, WF m → ¬ Contains m key hash →
      Remove PointersMatch m key hash = some (m, 0)) ∧
    (∀ m key hash t, WF m → t < m.capacity_ → (ent m.map_ t).key = key →
      (ent m.map_ t).key ≠ 0 → (ent m.map_ t).hash = hash →
      (ent m.map_ t).value = 0 →
      ∃ m2, Remove PointersMatch m key hash = some (m2, 0) ∧
        m2.occupancy_ + 1 = m.occupancy_ ∧ ¬ Contains m2 key hash) := by
  constructor
  · exact fun m key hash hwf hnc => remove_absent m key hash hwf hnc
  · intro m key hash t hwf ht hkt hlt hht hvt
    obtain ⟨m2, hrun, hwf2, hcap2, hocc2, hmem2, hnc2⟩ :=
      remove_spec m key hash t hwf ht hkt hlt hht
    rw [hvt] at hrun
    have hocc1 : 1 ≤ m.occupancy_ := by
      rw [hwf.occ_eq]
      have : 0 < ((List.range m.capacity_).filter
          (fun i => decide ((ent m.map_ i).key ≠ 0))).length := by
        rw [List.length_pos]
        intro hnil
        have := List.filter_eq_nil.mp hnil t (List.mem_range.mpr ht)
        simp [hlt] at this
      unfold countLive
      omega
    exact ⟨m2, hrun, by omega, hnc2⟩

/-- Witness for C10: removing the absent key 9 returns NULL with no
mutation, and removing the present key 2 (whose stored value is the NULL
sentinel) also returns NULL while deleting the entry. -/
theorem C10_witness :
    Remove PointersMatch mABC 9 0 = some (mABC, 0) ∧
    ∃ m2, Remove PointersMatch mABC 2 0 = some (m2, 0) ∧
      m2.occupancy_ + 1 = mABC.occupancy_ ∧ ¬ Contains m2 2 0 :=
  ⟨C10_null_return_ambiguous.1 mABC 9 0 mABC_wf (by decide),
    C10_null_return_ambiguous.2 mABC 2 0 1 mABC_wf (by decide) (by decide)
      (by decide) (by decide) (by decide)⟩

end Hashmap
